import Mathlib

/-!
# pre-caching: a verification development of `main.go`

The program reads a sitemap, rewrites every discovered URL for an optional
override host, requests each URL once (sequentially or from a bounded pool of
goroutines) and counts the cache state announced by a response header.

Conventions of the embedding

* A Go `string` is represented by its list of characters (`GoString`).  The
  representation is exact for ASCII text, which is what the statements below
  are evaluated on.
* Go `int` and `time.Duration` values are `Int`; where the program multiplies
  a duration the result is wrapped to 64 bits (`wrap64`).
* The network is an oracle: `Transport` gives the answer to a request as a
  function of the number of requests made before it.
* Output written through the `Colors` reporter is not part of the state.
-/

namespace PreCaching

/-! ## Strings -/

/-- Go strings, as lists of characters. -/
abbrev GoString := List Char

/-- Rune map of `unicode.ToUpper`, exact on ASCII.  The two non-ASCII runes
whose upper case is an ASCII letter (dotless i and long s) are included; every
other non-ASCII rune is kept, which cannot create or destroy an ASCII word. -/
def upperRune (c : Char) : Char :=
  if 97 ≤ c.toNat ∧ c.toNat ≤ 122 then Char.ofNat (c.toNat - 32)
  else if c.toNat = 0x131 then 'I'
  else if c.toNat = 0x17F then 'S'
  else c

/-- Model of `strings.ToUpper`. -/
def ToUpper (s : GoString) : GoString := s.map upperRune

/-- Representative of a rune under simple case folding, exact on ASCII (with
the Kelvin sign and the long s, the two non-ASCII runes folding to ASCII). -/
def foldRune (c : Char) : Char :=
  if 65 ≤ c.toNat ∧ c.toNat ≤ 90 then Char.ofNat (c.toNat + 32)
  else if c.toNat = 0x212A then 'k'
  else if c.toNat = 0x17F then 's'
  else c

/-- Model of `strings.EqualFold`. -/
def EqualFold (s t : GoString) : Bool := s.map foldRune == t.map foldRune

/-- Model of `strings.Contains`: some suffix of `s` starts with `sub`. -/
def Contains : GoString → GoString → Bool
  | [], sub => sub.isEmpty
  | c :: s, sub => sub.isPrefixOf (c :: s) || Contains s sub

/-- Model of `strings.Join`. -/
def Join : List GoString → GoString → GoString
  | [], _ => []
  | [a], _ => a
  | a :: b :: rest, sep => a ++ sep ++ Join (b :: rest) sep

/-! ## Data model -/

/-- Go `http.Header`, a map from header name to its values.  A value lists the
entries in the order in which one execution of the `range` statement of
`processResults` visits them.  Go draws that order anew at every `range`, so
two values whose entries are permutations of each other stand for the same map
(`SameOutcome`); a statement about one call holds for every order, a statement
comparing two calls has to allow a different order in each. -/
abbrev Header := List (GoString × List GoString)

/-- Go `RequestResult`.  `Error = none` stands for a nil error. -/
structure RequestResult where
  URL : GoString
  StatusCode : Int
  Headers : Header
  Error : Option GoString
deriving DecidableEq, Repr

/-- The fields of Go `PreCache` that the modelled functions read or write. -/
structure PreCache where
  host : GoString
  cacheHeader : GoString
  size : Int
  delay : Int
  scheme : GoString
  domain : GoString
  hitCount : Int
  missCount : Int
  noneCount : Int
  noHeaderCount : Int
  exceptionCount : Int
deriving DecidableEq, Repr

/-! ## processResults -/

/-- The inner `for header, values := range result.Headers` loop of
`processResults`, with its `break`, for the visiting order given by the list:
returns the `found` flag and the updated counters.  The first entry visited
whose key equals the header name decides; which entry that is can differ from
one call to the next when several keys match. -/
def scanHeaders (pc : PreCache) : Header → Bool × PreCache
  | [] => (false, pc)
  | (header, values) :: rest =>
    if EqualFold header pc.cacheHeader then
      let value := Join values ", ".toList
      let upperValue := ToUpper value
      if Contains upperValue "HIT".toList then
        (true, { pc with hitCount := pc.hitCount + 1 })
      else if Contains upperValue "MISS".toList || Contains upperValue "EXPIRED".toList then
        (true, { pc with missCount := pc.missCount + 1 })
      else
        (true, { pc with noneCount := pc.noneCount + 1 })
    else scanHeaders pc rest

/-- One iteration of the outer loop of `processResults`. -/
def processResult (pc : PreCache) (result : RequestResult) : PreCache :=
  if result.Error.isSome then
    { pc with exceptionCount := pc.exceptionCount + 1 }
  else
    let (found, pc1) := scanHeaders pc result.Headers
    if !found then { pc1 with noHeaderCount := pc1.noHeaderCount + 1 } else pc1

/-- Go `PreCache.processResults`: resets the five counters, returns at once
when no cache header is configured, and otherwise folds the outcomes. -/
def processResults (pc : PreCache) (results : List RequestResult) : PreCache :=
  let pc0 := { pc with hitCount := 0, missCount := 0, noneCount := 0,
                       noHeaderCount := 0, exceptionCount := 0 }
  if pc0.cacheHeader = [] then pc0
  else results.foldl processResult pc0

/-! ### The classification in the words of the specification -/

/-- The five buckets. -/
inductive Category where
  | Hit | Miss | None | MissingHeader | Exception
deriving DecidableEq, Repr

/-- Bucket of a header value: the upper-cased join of the values is searched
for HIT, then for MISS or EXPIRED. -/
def classifyValue (values : List GoString) : Category :=
  let v := ToUpper (Join values ", ".toList)
  if Contains v "HIT".toList then Category.Hit
  else if Contains v "MISS".toList || Contains v "EXPIRED".toList then Category.Miss
  else Category.None

/-- Specification of `Classify(outcome, headerName)`. -/
def Classify (headerName : GoString) (outcome : RequestResult) : Category :=
  if outcome.Error.isSome then Category.Exception
  else
    match outcome.Headers.find? (fun kv => EqualFold kv.1 headerName) with
    | none => Category.MissingHeader
    | some kv => classifyValue kv.2

/-- The counter of a bucket. -/
def bump (pc : PreCache) : Category → PreCache
  | Category.Hit => { pc with hitCount := pc.hitCount + 1 }
  | Category.Miss => { pc with missCount := pc.missCount + 1 }
  | Category.None => { pc with noneCount := pc.noneCount + 1 }
  | Category.MissingHeader => { pc with noHeaderCount := pc.noHeaderCount + 1 }
  | Category.Exception => { pc with exceptionCount := pc.exceptionCount + 1 }

/-- The five counters after counting a list of buckets from zero. -/
def tally (pc : PreCache) (cs : List Category) : PreCache :=
  { pc with hitCount := (cs.count Category.Hit : Nat),
            missCount := (cs.count Category.Miss : Nat),
            noneCount := (cs.count Category.None : Nat),
            noHeaderCount := (cs.count Category.MissingHeader : Nat),
            exceptionCount := (cs.count Category.Exception : Nat) }

/-- Two values that stand for the same Go outcome: the same fields, and the
same header map with its entries visited in possibly different orders. -/
def SameOutcome (o1 o2 : RequestResult) : Prop :=
  o1.URL = o2.URL ∧ o1.StatusCode = o2.StatusCode ∧ o1.Error = o2.Error
    ∧ o1.Headers.Perm o2.Headers

/-- The list `l2` holds the outcomes of `l1` in another order, as a second
call of `processResults` sees them: each header map is visited in an order of
its own. -/
def Reordered (l1 l2 : List RequestResult) : Prop :=
  ∃ l, l1.Perm l ∧ List.Forall₂ SameOutcome l l2

/-- An outcome that carries only a header map. -/
def withHeaders (h : Header) : RequestResult :=
  { URL := "https://example.com/".toList, StatusCode := 200, Headers := h, Error := none }

/-- A response with the two headers `X-Cache: HIT` and `x-cache: MISS`, visited
in this order. -/
def hitThenMiss : RequestResult :=
  withHeaders [("X-Cache".toList, ["HIT".toList]), ("x-cache".toList, ["MISS".toList])]

/-- The same response, visited in the other order. -/
def missThenHit : RequestResult :=
  withHeaders [("x-cache".toList, ["MISS".toList]), ("X-Cache".toList, ["HIT".toList])]

/-- A configuration with cache header `x-cache`. -/
def pcXCache : PreCache :=
  { host := [], cacheHeader := "x-cache".toList, size := 5, delay := 500000000,
    scheme := "https".toList, domain := "example.com".toList,
    hitCount := 0, missCount := 0, noneCount := 0, noHeaderCount := 0, exceptionCount := 0 }

/-! ## net/url.Parse

`processURL` and `http.NewRequest` parse their argument with `url.Parse` of
the Go standard library.  The model follows that function step by step:
fragment, control characters, scheme, query, opaque and relative forms,
authority, and the percent-decoding of the path. -/

/-- Go `url.URL`, without the user information (which is validated by
`parseAuthority` but read by nothing in this program). -/
structure URL where
  Scheme : GoString
  Opaque : GoString
  Host : GoString
  Path : GoString
  ForceQuery : Bool
  RawQuery : GoString
  Fragment : GoString
deriving DecidableEq, Repr

/-- The escaping modes of net/url that `Parse` reaches. -/
inductive Encoding where
  | encodePath | encodeHost | encodeZone | encodeUserPassword | encodeFragment
deriving DecidableEq, Repr

/-- Go `ishex`. -/
def ishex (c : Char) : Bool :=
  ('0' ≤ c && c ≤ '9') || ('a' ≤ c && c ≤ 'f') || ('A' ≤ c && c ≤ 'F')

/-- Go `unhex`. -/
def unhex (c : Char) : Nat :=
  if '0' ≤ c && c ≤ '9' then c.toNat - 48
  else if 'a' ≤ c && c ≤ 'f' then c.toNat - 97 + 10
  else if 'A' ≤ c && c ≤ 'F' then c.toNat - 65 + 10
  else 0

/-- Letters and digits. -/
def isAlnum (c : Char) : Bool :=
  ('a' ≤ c && c ≤ 'z') || ('A' ≤ c && c ≤ 'Z') || ('0' ≤ c && c ≤ '9')

/-- Go `shouldEscape(c, encodeHost)`: the characters that may not stand
unescaped in a host. -/
def shouldEscapeHost (c : Char) : Bool :=
  !(isAlnum c || "!$&\x27()*+,;=:[]<>\"-_.~".toList.contains c)

/-- Go `unescape`, for the modes above: fails on a malformed escape (and, in a
host, on an escaped ASCII byte or a forbidden character), and otherwise
replaces every escape by the character it encodes. -/
def unescape (mode : Encoding) : GoString → Option GoString
  | [] => some []
  | c :: rest =>
    if c = '%' then
      match rest with
      | h1 :: h2 :: rest2 =>
        if !(ishex h1 && ishex h2) then none
        else if mode = Encoding.encodeHost && unhex h1 < 8 && !(h1 = '2' && h2 = '5') then none
        else if mode = Encoding.encodeZone && !(h1 = '2' && h2 = '5')
            && 16 * unhex h1 + unhex h2 ≠ 32
            && shouldEscapeHost (Char.ofNat (16 * unhex h1 + unhex h2)) then none
        else (unescape mode rest2).map (fun t => Char.ofNat (16 * unhex h1 + unhex h2) :: t)
      | _ => none
    else if (mode = Encoding.encodeHost || mode = Encoding.encodeZone)
        && c.toNat < 128 && shouldEscapeHost c then none
    else (unescape mode rest).map (fun t => c :: t)

/-- Go `stringContainsCTLByte`. -/
def stringContainsCTLByte (s : GoString) : Bool :=
  s.any (fun c => c.toNat < 32 || c.toNat = 127)

/-- Go `strings.Cut` for a one-character separator. -/
def Cut (s : GoString) (sep : Char) : GoString × GoString × Bool :=
  match s.span (fun c => c != sep) with
  | (before, []) => (before, [], false)
  | (before, _ :: after) => (before, after, true)

/-- Go `strings.LastIndex` for a one-character separator. -/
def LastIndex (s : GoString) (sep : Char) : Option Nat :=
  match (s.reverse.span (fun c => c != sep)).2 with
  | [] => none
  | _ :: front => some front.length

/-- Go `strings.Index`. -/
def Index : GoString → GoString → Option Nat
  | [], sub => if sub.isEmpty then some 0 else none
  | c :: s, sub =>
    if sub.isPrefixOf (c :: s) then some 0 else (Index s sub).map (fun i => i + 1)

/-- The loop of Go `getScheme`, at index `i` with `rest = rawURL[i:]`. -/
def getSchemeLoop (rawURL : GoString) : Nat → GoString → Option (GoString × GoString)
  | _, [] => some ([], rawURL)
  | i, c :: rest =>
    if ('a' ≤ c && c ≤ 'z') || ('A' ≤ c && c ≤ 'Z') then getSchemeLoop rawURL (i + 1) rest
    else if ('0' ≤ c && c ≤ '9') || c = '+' || c = '-' || c = '.' then
      if i = 0 then some ([], rawURL) else getSchemeLoop rawURL (i + 1) rest
    else if c = ':' then
      if i = 0 then none else some (rawURL.take i, rest)
    else some ([], rawURL)

/-- Go `getScheme`: the scheme and what follows it; fails on a leading colon. -/
def getScheme (rawURL : GoString) : Option (GoString × GoString) :=
  getSchemeLoop rawURL 0 rawURL

/-- Go `strings.ToLower` on the ASCII letters a scheme consists of. -/
def ToLower (s : GoString) : GoString :=
  s.map (fun c => if 65 ≤ c.toNat ∧ c.toNat ≤ 90 then Char.ofNat (c.toNat + 32) else c)

/-- Go `validOptionalPort`. -/
def validOptionalPort : GoString → Bool
  | [] => true
  | c :: digits => c = ':' && digits.all (fun b => '0' ≤ b && b ≤ '9')

/-- Go `validUserinfo`. -/
def validUserinfo (s : GoString) : Bool :=
  s.all (fun r => isAlnum r || "-._:~!$&\x27()*+,;=%@".toList.contains r)

/-- Go `parseHost`. -/
def parseHost (host : GoString) : Option GoString :=
  if "[".toList.isPrefixOf host then
    match LastIndex host ']' with
    | none => none
    | some i =>
      if !validOptionalPort (host.drop (i + 1)) then none
      else
        match Index (host.take i) "%25".toList with
        | some zone =>
          (unescape Encoding.encodeHost (host.take zone)).bind fun host1 =>
          (unescape Encoding.encodeZone ((host.take i).drop zone)).bind fun host2 =>
          (unescape Encoding.encodeHost (host.drop i)).bind fun host3 =>
          some (host1 ++ host2 ++ host3)
        | none => unescape Encoding.encodeHost host
  else
    match LastIndex host ':' with
    | some i =>
      if !validOptionalPort (host.drop i) then none
      else unescape Encoding.encodeHost host
    | none => unescape Encoding.encodeHost host

/-- Go `parseAuthority`, returning the host. -/
def parseAuthority (authority : GoString) : Option GoString :=
  match LastIndex authority '@' with
  | none => parseHost authority
  | some i =>
    (parseHost (authority.drop (i + 1))).bind fun host =>
    let userinfo := authority.take i
    if !validUserinfo userinfo then none
    else if !userinfo.contains ':' then
      (unescape Encoding.encodeUserPassword userinfo).bind fun _ => some host
    else
      let (username, password, _) := Cut userinfo ':'
      (unescape Encoding.encodeUserPassword username).bind fun _ =>
      (unescape Encoding.encodeUserPassword password).bind fun _ => some host

/-- Go `parse(rawURL, false)`: the URL without its fragment. -/
def parse (rawURL : GoString) : Option URL :=
  if stringContainsCTLByte rawURL then none
  else if rawURL = "*".toList then
    some { Scheme := [], Opaque := [], Host := [], Path := "*".toList, ForceQuery := false,
           RawQuery := [], Fragment := [] }
  else
    (getScheme rawURL).bind fun (scheme0, rest0) =>
    let scheme := ToLower scheme0
    let (rest, forceQuery, rawQuery) :=
      if rest0.getLast? = some '?' && rest0.count '?' = 1 then (rest0.dropLast, true, [])
      else ((Cut rest0 '?').1, false, (Cut rest0 '?').2.1)
    if !("/".toList.isPrefixOf rest) && scheme ≠ [] then
      some { Scheme := scheme, Opaque := rest, Host := [], Path := [], ForceQuery := forceQuery,
             RawQuery := rawQuery, Fragment := [] }
    else if !("/".toList.isPrefixOf rest) && (Cut rest '/').1.contains ':' then none
    else if (scheme ≠ [] || !("///".toList.isPrefixOf rest)) && "//".toList.isPrefixOf rest then
      let authority0 := rest.drop 2
      let (authority, rest1) :=
        match Index authority0 "/".toList with
        | some i => (authority0.take i, authority0.drop i)
        | none => (authority0, [])
      (parseAuthority authority).bind fun host =>
      (unescape Encoding.encodePath rest1).bind fun path =>
      some { Scheme := scheme, Opaque := [], Host := host, Path := path,
             ForceQuery := forceQuery, RawQuery := rawQuery, Fragment := [] }
    else
      (unescape Encoding.encodePath rest).bind fun path =>
      some { Scheme := scheme, Opaque := [], Host := [], Path := path,
             ForceQuery := forceQuery, RawQuery := rawQuery, Fragment := [] }

/-- Go `url.Parse`: cuts the fragment off, parses the rest, decodes the
fragment.  `none` stands for a non-nil error. -/
def Parse (rawURL : GoString) : Option URL :=
  let (u, frag, _) := Cut rawURL '#'
  (parse u).bind fun url =>
  if frag = [] then some url
  else (unescape Encoding.encodeFragment frag).bind fun f => some { url with Fragment := f }

/-! ## processURL -/

/-- Go `PreCache.processURL`. -/
def processURL (pc : PreCache) (rawURL : GoString) : GoString :=
  if pc.host = [] then rawURL
  else
    match Parse rawURL with
    | none => rawURL
    | some parsedURL =>
      let newURL := pc.scheme ++ "://".toList ++ pc.host ++ parsedURL.Path
      if parsedURL.RawQuery ≠ [] then newURL ++ "?".toList ++ parsedURL.RawQuery
      else newURL

/-- A configuration with override host 127.0.0.1:8080 and the scheme and
domain captured from a sitemap at https://example.com. -/
def pcOverride : PreCache :=
  { pcXCache with host := "127.0.0.1:8080".toList }

/-! ## Requests -/

/-- The network: the answer of `http.Client.Do` to the request for a URL, as
a function of the number of requests made before it.  An answer is an error
text or a status code with the response headers. -/
abbrev Transport := Nat → GoString → Except GoString (Int × Header)

/-- Go `PreCache.makeRequest`, given the answer function of the network at the
time of the call.  `http.NewRequest` fails exactly when `url.Parse` does; each
of the three return statements stores the target URL in the outcome. -/
def makeRequest (answer : GoString → Except GoString (Int × Header)) (targetURL : GoString) :
    RequestResult :=
  match Parse targetURL with
  | none => { URL := targetURL, StatusCode := 0, Headers := [],
              Error := some "parse error".toList }
  | some _ =>
    match answer targetURL with
    | Except.error err => { URL := targetURL, StatusCode := 0, Headers := [], Error := some err }
    | Except.ok resp => { URL := targetURL, StatusCode := resp.1, Headers := resp.2, Error := none }

/-- Wrap-around of a 64-bit signed integer. -/
def wrap64 (x : Int) : Int := (x + 2 ^ 63) % 2 ^ 64 - 2 ^ 63

/-- One second, as a `time.Duration` (nanoseconds). -/
def Second : Int := 1000000000

/-- What a run does that can be observed from outside. -/
inductive Event where
  | sleep (d : Int)
  | request (url : GoString)
deriving DecidableEq, Repr

/-- The state of `processURLsSequentially`: the `results` slice and the calls
of `time.Sleep` and `makeRequest` made so far, oldest first. -/
structure Run where
  results : List RequestResult
  trace : List Event
deriving DecidableEq, Repr

/-- The loop of `processURLsSequentially` from index `i` on. -/
def seqLoop (pc : PreCache) (tr : Transport) : Nat → List GoString → Run → Run
  | _, [], run => run
  | i, targetURL :: rest, run =>
    let run1 : Run :=
      if i > 0 then { run with trace := run.trace ++ [Event.sleep (wrap64 (pc.delay * 2))] }
      else run
    let result := makeRequest (tr i) targetURL
    let run2 : Run :=
      { results := run1.results ++ [result], trace := run1.trace ++ [Event.request targetURL] }
    let run3 : Run :=
      if (i + 1) % 10 = 0 then { run2 with trace := run2.trace ++ [Event.sleep Second] }
      else run2
    seqLoop pc tr (i + 1) rest run3

/-- Go `PreCache.processURLsSequentially`. -/
def processURLsSequentially (pc : PreCache) (tr : Transport) (urls : List GoString) : Run :=
  seqLoop pc tr 0 urls { results := [], trace := [] }

/-- Time for which `time.Sleep(d)` pauses: a negative or zero duration returns
at once. -/
def pause (d : Int) : Int := if d ≤ 0 then 0 else d

/-- Total time spent in `time.Sleep` along a trace. -/
def totalSleep : List Event → Int
  | [] => 0
  | Event.sleep d :: es => pause d + totalSleep es
  | Event.request _ :: es => totalSleep es

/-- The URLs requested along a trace, in order. -/
def requestsOf : List Event → List GoString
  | [] => []
  | Event.sleep _ :: es => requestsOf es
  | Event.request u :: es => u :: requestsOf es

/-! ## The goroutine pool of processURLsConcurrently

Each target gets a goroutine that sends on the semaphore channel, sleeps and
calls `makeRequest`, appends the outcome under the mutex, and finally receives
from the semaphore and signals the wait group.  A goroutine is modelled by the
phase it has reached; a step of the pool is the next action of one goroutine.
The send on the semaphore is possible only while fewer than `size` goroutines
hold a slot; the append is one step because the mutex makes it atomic. -/

/-- How far a goroutine has got. -/
inductive Phase where
  | waiting
  | acquired
  | fetched (r : RequestResult)
  | appended (r : RequestResult)
  | done (r : RequestResult)
deriving DecidableEq, Repr

/-- A goroutine with its argument. -/
structure Task where
  url : GoString
  phase : Phase
deriving DecidableEq, Repr

/-- The shared state: the goroutines in launch order, the `results` slice and
the requests made so far. -/
structure Pool where
  tasks : List Task
  results : List RequestResult
  calls : List GoString
deriving DecidableEq, Repr

/-- Whether a goroutine holds a slot of the semaphore. -/
def Phase.holds : Phase → Bool
  | Phase.acquired => true
  | Phase.fetched _ => true
  | Phase.appended _ => true
  | _ => false

/-- Whether a goroutine has returned. -/
def Phase.isDone : Phase → Bool
  | Phase.done _ => true
  | _ => false

/-- Number of occupied slots of the semaphore. -/
def inFlight (tasks : List Task) : Nat := tasks.countP (fun t => t.phase.holds)

/-- The next action of goroutine `i`, if it can act. -/
def stepAt (pc : PreCache) (tr : Transport) (i : Nat) (s : Pool) : Option Pool :=
  match s.tasks[i]? with
  | none => none
  | some t =>
    match t.phase with
    | Phase.waiting =>
      if (inFlight s.tasks : Int) < pc.size then
        some { s with tasks := s.tasks.set i { t with phase := Phase.acquired } }
      else none
    | Phase.acquired =>
      let result := makeRequest (tr s.calls.length) t.url
      some { s with tasks := s.tasks.set i { t with phase := Phase.fetched result },
                    calls := s.calls ++ [t.url] }
    | Phase.fetched r =>
      some { s with tasks := s.tasks.set i { t with phase := Phase.appended r },
                    results := s.results ++ [r] }
    | Phase.appended r =>
      some { s with tasks := s.tasks.set i { t with phase := Phase.done r } }
    | Phase.done _ => none

/-- The pool after the goroutines named by a schedule have acted in turn;
`none` when the schedule names a goroutine that cannot act. -/
def runSched (pc : PreCache) (tr : Transport) : List Nat → Pool → Option Pool
  | [], s => some s
  | i :: rest, s => (stepAt pc tr i s).bind (runSched pc tr rest)

/-- The pool right after the launch loop. -/
def initPool (urls : List GoString) : Pool :=
  { tasks := urls.map (fun u => { url := u, phase := Phase.waiting }), results := [], calls := [] }

/-- Whether `wg.Wait()` returns: every goroutine has finished. -/
def allDone (s : Pool) : Bool := s.tasks.all (fun t => t.phase.isDone)

/-- The schedule that lets the goroutines run one after the other. -/
def inTurn (n : Nat) : List Nat := (List.range n).flatMap (fun i => [i, i, i, i])

/-- How a call of the dispatcher ends. -/
inductive DispatchOutcome where
  | returned (results : List RequestResult) (requests : List GoString)
  | panicked
  | blocked (requests : List GoString)
deriving DecidableEq, Repr

/-- Go `PreCache.processURLsConcurrently`, as the relation between the
arguments and the ways the call can end.  With `size == 1` it is the
sequential loop.  Otherwise `make(chan struct{}, pc.size)` panics for a
negative size; then the call returns the `results` slice of a pool in which
every goroutine has finished, or never returns from a pool in which some
goroutine has not finished and none can act. -/
def processURLsConcurrently (pc : PreCache) (tr : Transport) (urls : List GoString)
    (o : DispatchOutcome) : Prop :=
  if pc.size = 1 then
    o = DispatchOutcome.returned (processURLsSequentially pc tr urls).results
          (requestsOf (processURLsSequentially pc tr urls).trace)
  else if pc.size < 0 then o = DispatchOutcome.panicked
  else
    ∃ (sched : List Nat) (s : Pool), runSched pc tr sched (initPool urls) = some s ∧
      ((allDone s = true ∧ o = DispatchOutcome.returned s.results s.calls) ∨
       (allDone s = false ∧ (∀ i, stepAt pc tr i s = none) ∧ o = DispatchOutcome.blocked s.calls))

/-- A network without servers. -/
def noNetwork : Transport := fun _ _ => Except.error "connection refused".toList

/-- A network in which every server answers 200 with an `X-Cache: HIT` header. -/
def allHit : Transport := fun _ _ => Except.ok (200, [("X-Cache".toList, ["HIT".toList])])

/-- The outcomes of requesting the targets in order, the first being request
number `i`. -/
def resultsFrom (tr : Transport) : Nat → List GoString → List RequestResult
  | _, [] => []
  | i, u :: rest => makeRequest (tr i) u :: resultsFrom tr (i + 1) rest

/-- The outcome a goroutine has obtained, if it has made its request. -/
def Phase.outcome : Phase → Option RequestResult
  | Phase.fetched r => some r
  | Phase.appended r => some r
  | Phase.done r => some r
  | _ => none

/-- The outcome a goroutine has appended to `results`, if it has. -/
def Phase.landed : Phase → Option RequestResult
  | Phase.appended r => some r
  | Phase.done r => some r
  | _ => none

/-- Number of actions a goroutine still has to take. -/
def Phase.remaining : Phase → Nat
  | Phase.waiting => 4
  | Phase.acquired => 3
  | Phase.fetched _ => 2
  | Phase.appended _ => 1
  | Phase.done _ => 0

/-- Number of actions the pool still has to take. -/
def work (s : Pool) : Nat := (s.tasks.map (fun t => t.phase.remaining)).sum

/-- What holds of every pool reached from the launch of one goroutine per
target: the goroutines are those of the targets, an outcome held by a
goroutine comes from a request for its own URL, `results` holds the appended
outcomes and `calls` the URLs of the goroutines that made their request. -/
def PoolInv (tr : Transport) (urls : List GoString) (s : Pool) : Prop :=
  s.tasks.map Task.url = urls
  ∧ (∀ t ∈ s.tasks, ∀ r, t.phase.outcome = some r → ∃ k, r = makeRequest (tr k) t.url)
  ∧ s.results.Perm (s.tasks.filterMap (fun t => t.phase.landed))
  ∧ s.calls.Perm ((s.tasks.filter (fun t => t.phase.outcome.isSome)).map Task.url)

/-! ## Regular expressions

`getURLsRegex` uses two patterns built from literal characters, one optional
character and one repetition of a negated character.  `matchAt` is the
leftmost-first (backtracking) matcher of Go `regexp` on that fragment:
an optional character is tried first, a repetition takes as much as it can
and gives characters back one by one. -/

/-- The pieces of a pattern: `c`, `c?` and `[^c]+`. -/
inductive Tok where
  | lit (c : Char)
  | opt (c : Char)
  | plusNot (c : Char)
deriving DecidableEq, Repr

/-- A literal text as a pattern. -/
def lits (s : GoString) : List Tok := s.map Tok.lit

/-- What can remain after `[^c]+` has consumed a prefix of the input, the
longest prefix first. -/
def plusCands (c : Char) : GoString → List GoString
  | [] => []
  | x :: s => if x = c then [] else plusCands c s ++ [s]

/-- Matches a pattern at the start of the input and returns what follows the
preferred match. -/
def matchAt : List Tok → GoString → Option GoString
  | [], s => some s
  | Tok.lit c :: ts, s =>
    match s with
    | [] => none
    | x :: s1 => if x = c then matchAt ts s1 else none
  | Tok.opt c :: ts, s =>
    match s with
    | [] => matchAt ts []
    | x :: s1 =>
      if x = c then
        match matchAt ts s1 with
        | some r => some r
        | none => matchAt ts (x :: s1)
      else matchAt ts (x :: s1)
  | Tok.plusNot c :: ts, s => (plusCands c s).findSome? (matchAt ts)

/-- Go `Regexp.FindString`: the text of the leftmost match, or the empty
string when there is none. -/
def FindString (toks : List Tok) : GoString → GoString
  | [] => []
  | c :: s =>
    match matchAt toks (c :: s) with
    | some r => (c :: s).take ((c :: s).length - r.length)
    | none => FindString toks s

/-- The scan of Go `Regexp.FindAllString`: `skip` characters of the input
belong to the match found last. -/
def findAllFrom (toks : List Tok) : Nat → GoString → List GoString
  | _, [] => []
  | skip + 1, _ :: s => findAllFrom toks skip s
  | 0, c :: s =>
    match matchAt toks (c :: s) with
    | some r =>
      (c :: s).take ((c :: s).length - r.length)
        :: findAllFrom toks ((c :: s).length - r.length - 1) s
    | none => findAllFrom toks 0 s

/-- Go `Regexp.FindAllString(s, -1)`: the successive non-overlapping matches,
for patterns that match no empty text. -/
def FindAllString (toks : List Tok) (s : GoString) : List GoString := findAllFrom toks 0 s

/-- The pattern `<loc>https?://[^<]+</loc>`. -/
def locPattern : List Tok :=
  lits "<loc>http".toList ++ [Tok.opt 's'] ++ lits "://".toList ++ [Tok.plusNot '<']
    ++ lits "</loc>".toList

/-- The pattern `https?://[^<]+`. -/
def urlPattern : List Tok :=
  lits "http".toList ++ [Tok.opt 's'] ++ lits "://".toList ++ [Tok.plusNot '<']

/-! ## URL extraction -/

/-- The loop of `getURLsRegex` over the matches. -/
def regexLoop (pc : PreCache) : List GoString → List GoString → List GoString
  | [], urls => urls
  | m :: rest, urls =>
    let urlMatch := FindString urlPattern m
    if urlMatch = [] then regexLoop pc rest urls
    else regexLoop pc rest (urls ++ [processURL pc urlMatch])

/-- Go `PreCache.getURLsRegex`. -/
def getURLsRegex (pc : PreCache) (sitemapContent : GoString) : Except GoString (List GoString) :=
  let found := FindAllString locPattern sitemapContent
  Except.ok (regexLoop pc found [])

/-- What `Start` gets from outside: the result of `getSitemap`, the XML
decoder (`xml.Unmarshal` into `Sitemap`, giving the `loc` texts of the `url`
elements or an error) and the network. -/
structure Env where
  sitemap : Except GoString GoString
  xmlUnmarshal : GoString → Except GoString (List GoString)
  transport : Transport

/-- Go `PreCache.getURLs`. -/
def getURLs (pc : PreCache) (env : Env) : Except GoString (List GoString) :=
  match env.sitemap with
  | Except.error err => Except.error err
  | Except.ok sitemapContent =>
    match env.xmlUnmarshal sitemapContent with
    | Except.error _ => getURLsRegex pc sitemapContent
    | Except.ok locs => Except.ok (locs.map (processURL pc))

/-! ## Start -/

/-- How a call of `Start` ends: with an error value (`none` for nil), with a
panic, or never. -/
inductive StartResult where
  | returned (err : Option GoString)
  | panicked
  | blocked
deriving DecidableEq, Repr

/-- A call of `Start` as seen from outside: how it ends, whether the
dispatcher was called, the requests made to targets, and the counters. -/
structure StartOutcome where
  result : StartResult
  dispatched : Bool
  requests : List GoString
  counters : PreCache
deriving DecidableEq, Repr

/-- Go `PreCache.Start`, as the relation between the configuration, the
environment and the ways the call can end. -/
def Start (pc : PreCache) (env : Env) (o : StartOutcome) : Prop :=
  match getURLs pc env with
  | Except.error err =>
    o = { result := StartResult.returned (some ("提取网址失败：".toList ++ err)),
          dispatched := false, requests := [], counters := pc }
  | Except.ok urls =>
    if urls.length = 0 then
      o = { result := StartResult.returned
              (some "提取网址失败，请检查sitemap文件是否符合规范".toList),
            dispatched := false, requests := [], counters := pc }
    else
      ∃ d : DispatchOutcome, processURLsConcurrently pc env.transport urls d ∧
        match d with
        | DispatchOutcome.returned results requests =>
          o = { result := StartResult.returned none, dispatched := true, requests := requests,
                counters := processResults pc results }
        | DispatchOutcome.panicked =>
          o = { result := StartResult.panicked, dispatched := true, requests := [],
                counters := pc }
        | DispatchOutcome.blocked requests =>
          o = { result := StartResult.blocked, dispatched := true, requests := requests,
                counters := pc }

/-- A URL between the tags of a location element. -/
def wrapLoc (u : GoString) : GoString := "<loc>".toList ++ u ++ "</loc>".toList

/-! ## Pacing in the words of the specification -/

/-- The events of sequential mode as the specification describes them, for
the targets from index `i` on: a sleep of twice the base delay `d` before each
request except the first, and a sleep of one second after every tenth
request. -/
def pacedFrom (d : Int) : Nat → List GoString → List Event
  | _, [] => []
  | i, u :: rest =>
    (if i > 0 then [Event.sleep (2 * d)] else []) ++ [Event.request u]
      ++ (if (i + 1) % 10 = 0 then [Event.sleep Second] else []) ++ pacedFrom d (i + 1) rest

/-! ## Concrete configurations -/

/-- A configuration with concurrency ceiling 0. -/
def pcNoSlots : PreCache := { pcXCache with size := 0 }

/-- A configuration with a base delay of minus one millisecond (the flag
`-delay=-1`). -/
def pcNegativeDelay : PreCache := { pcXCache with size := 1, delay := -1000000 }

/-- A configuration with a base delay of 4611686018428 milliseconds, which
fits a 64-bit duration while its double does not. -/
def pcHugeDelay : PreCache := { pcXCache with size := 1, delay := 4611686018428000000 }

/-- Two targets. -/
def twoTargets : List GoString := ["https://example.com/a".toList, "https://example.com/b".toList]

/-- An environment whose sitemap lists one page. -/
def envOnePage : Env :=
  { sitemap := Except.ok "<urlset><url><loc>https://example.com/a</loc></url></urlset>".toList,
    xmlUnmarshal := fun _ => Except.ok ["https://example.com/a".toList],
    transport := allHit }

/-- An environment whose sitemap lists no page. -/
def envNoPage : Env :=
  { sitemap := Except.ok "<urlset></urlset>".toList,
    xmlUnmarshal := fun _ => Except.ok [],
    transport := allHit }

/-! ## Lemmas on processResults -/

theorem scanHeaders_eq (pc : PreCache) (h : Header) :
    scanHeaders pc h =
      match h.find? (fun kv => EqualFold kv.1 pc.cacheHeader) with
      | none => (false, pc)
      | some kv => (true, bump pc (classifyValue kv.2)) := by
  induction h with
  | nil => simp [scanHeaders]
  | cons kv rest ih =>
    obtain ⟨k, vs⟩ := kv
    by_cases hk : EqualFold k pc.cacheHeader = true
    · simp only [scanHeaders, hk, if_true, List.find?_cons_of_pos, classifyValue]
      split_ifs <;> rfl
    · have hk2 : EqualFold k pc.cacheHeader = false := by simpa using hk
      simp only [scanHeaders, hk2, List.find?_cons, ih]
      simp

theorem processResult_eq (pc : PreCache) (r : RequestResult) :
    processResult pc r = bump pc (Classify pc.cacheHeader r) := by
  unfold processResult Classify
  by_cases he : r.Error.isSome = true
  · simp [he, bump]
  · simp only [he, scanHeaders_eq]
    cases hf : r.Headers.find? (fun kv => EqualFold kv.1 pc.cacheHeader) with
    | none => simp [bump]
    | some kv =>
      cases hc : classifyValue kv.2 <;> simp [bump]

theorem bump_cacheHeader (pc : PreCache) (c : Category) :
    (bump pc c).cacheHeader = pc.cacheHeader := by
  cases c <;> rfl

/-- Counting from an arbitrary state adds the number of outcomes of each
bucket to the corresponding counter. -/
theorem foldl_processResult (rs : List RequestResult) (pc : PreCache) :
    rs.foldl processResult pc =
      { pc with
        hitCount := pc.hitCount + ((rs.map (Classify pc.cacheHeader)).count Category.Hit : Nat),
        missCount := pc.missCount + ((rs.map (Classify pc.cacheHeader)).count Category.Miss : Nat),
        noneCount := pc.noneCount + ((rs.map (Classify pc.cacheHeader)).count Category.None : Nat),
        noHeaderCount := pc.noHeaderCount +
          ((rs.map (Classify pc.cacheHeader)).count Category.MissingHeader : Nat),
        exceptionCount := pc.exceptionCount +
          ((rs.map (Classify pc.cacheHeader)).count Category.Exception : Nat) } := by
  induction rs generalizing pc with
  | nil => simp
  | cons r rs ih =>
    rw [List.foldl_cons, ih, processResult_eq, bump_cacheHeader]
    cases hc : Classify pc.cacheHeader r <;>
      simp [bump, hc, List.count_cons] <;> omega

theorem processResults_eq_tally (pc : PreCache) (results : List RequestResult)
    (h : pc.cacheHeader ≠ []) :
    processResults pc results = tally pc (results.map (Classify pc.cacheHeader)) := by
  unfold processResults
  simp only [h, if_false]
  rw [foldl_processResult]
  simp [tally]

theorem count_category_sum (cs : List Category) :
    cs.count Category.Hit + cs.count Category.Miss + cs.count Category.None
      + cs.count Category.MissingHeader + cs.count Category.Exception = cs.length := by
  induction cs with
  | nil => rfl
  | cons c cs ih =>
    cases c <;> simp [List.count_cons] <;> omega

/-- The bucket of an outcome does not depend on the order in which its header
entries are visited, as long as the entries whose key equals the header name
agree on the bucket (in particular when there is at most one such entry). -/
theorem Classify_header_order (headerName : GoString) (o1 o2 : RequestResult)
    (he : o1.Error = o2.Error) (hp : o1.Headers.Perm o2.Headers)
    (hagree : ∀ kv ∈ o1.Headers, ∀ kv2 ∈ o1.Headers, EqualFold kv.1 headerName = true →
      EqualFold kv2.1 headerName = true → classifyValue kv.2 = classifyValue kv2.2) :
    Classify headerName o1 = Classify headerName o2 := by
  unfold Classify
  rw [he]
  by_cases hs : o2.Error.isSome = true
  · simp [hs]
  · simp only [hs]
    cases h1 : o1.Headers.find? (fun kv => EqualFold kv.1 headerName) with
    | none =>
      have h2 : o2.Headers.find? (fun kv => EqualFold kv.1 headerName) = none := by
        rw [List.find?_eq_none] at h1 ⊢
        intro x hx
        exact h1 x (hp.mem_iff.2 hx)
      rw [h2]
    | some kv =>
      have hk1 : EqualFold kv.1 headerName = true := by
        have := List.find?_some h1
        simpa using this
      cases h2 : o2.Headers.find? (fun kv => EqualFold kv.1 headerName) with
      | none =>
        rw [List.find?_eq_none] at h2
        exact (h2 kv (hp.mem_iff.1 (List.mem_of_find?_eq_some h1)) hk1).elim
      | some kv2 =>
        have hk2 : EqualFold kv2.1 headerName = true := by
          have := List.find?_some h2
          simpa using this
        exact hagree kv (List.mem_of_find?_eq_some h1) kv2
          (hp.mem_iff.2 (List.mem_of_find?_eq_some h2)) hk1 hk2

/-- The model of `strings.Contains` decides whether `sub` occurs in `s` as a
contiguous part. -/
theorem Contains_iff (s sub : GoString) : Contains s sub = true ↔ sub <:+: s := by
  induction s with
  | nil =>
    cases sub with
    | nil => simp [Contains]
    | cons c t => simp [Contains]
  | cons c s ih =>
    simp only [Contains, Bool.or_eq_true, ih, List.infix_cons_iff, List.isPrefixOf_iff_prefix]

/-- For a fixed visiting order of every header map the counters do not depend
on the order of the outcomes. -/
theorem processResults_perm_same_visits (pc : PreCache) (l1 l2 : List RequestResult)
    (h : l1.Perm l2) : processResults pc l1 = processResults pc l2 := by
  by_cases hh : pc.cacheHeader = []
  · simp [processResults, hh]
  · rw [processResults_eq_tally pc l1 hh, processResults_eq_tally pc l2 hh]
    have hp := h.map (Classify pc.cacheHeader)
    simp only [tally, hp.count_eq]

/-- Outcomes that differ only in the visiting order of their headers get the
same buckets when, in each, the entries whose key equals the header name agree
on the bucket. -/
theorem Classify_sameOutcomes (headerName : GoString) (l l2 : List RequestResult)
    (h : List.Forall₂ SameOutcome l l2)
    (hagree : ∀ o ∈ l, ∀ kv ∈ o.Headers, ∀ kv2 ∈ o.Headers,
      EqualFold kv.1 headerName = true → EqualFold kv2.1 headerName = true →
      classifyValue kv.2 = classifyValue kv2.2) :
    l.map (Classify headerName) = l2.map (Classify headerName) := by
  induction h with
  | nil => rfl
  | cons hab _ ih =>
    obtain ⟨-, -, he, hp⟩ := hab
    simp only [List.map_cons]
    rw [ih (fun o ho => hagree o (List.mem_cons_of_mem _ ho)),
      Classify_header_order headerName _ _ he hp (hagree _ (List.mem_cons_self _ _))]

/-! ## Lemmas on the sequential loop -/

theorem makeRequest_URL (answer : GoString → Except GoString (Int × Header)) (u : GoString) :
    (makeRequest answer u).URL = u := by
  unfold makeRequest
  cases Parse u with
  | none => rfl
  | some p =>
    cases answer u with
    | error e => rfl
    | ok resp => rfl

theorem totalSleep_append (a b : List Event) :
    totalSleep (a ++ b) = totalSleep a + totalSleep b := by
  induction a with
  | nil => simp [totalSleep]
  | cons e es ih =>
    cases e with
    | sleep d =>
      show pause d + totalSleep (es ++ b) = pause d + totalSleep es + totalSleep b
      rw [ih]; ring
    | request u =>
      show totalSleep (es ++ b) = totalSleep es + totalSleep b
      exact ih

theorem pause_Second : pause Second = Second := by decide

theorem requestsOf_append (a b : List Event) :
    requestsOf (a ++ b) = requestsOf a ++ requestsOf b := by
  induction a with
  | nil => simp [requestsOf]
  | cons e es ih =>
    cases e <;> simp [requestsOf, ih]

theorem seqLoop_results (pc : PreCache) (tr : Transport) (urls : List GoString) (i : Nat)
    (run : Run) :
    (seqLoop pc tr i urls run).results = run.results ++ resultsFrom tr i urls := by
  induction urls generalizing i run with
  | nil => simp [seqLoop, resultsFrom]
  | cons u rest ih =>
    simp only [seqLoop, resultsFrom]
    rw [ih]
    split_ifs <;> simp

theorem seqLoop_requests (pc : PreCache) (tr : Transport) (urls : List GoString) (i : Nat)
    (run : Run) :
    requestsOf (seqLoop pc tr i urls run).trace = requestsOf run.trace ++ urls := by
  induction urls generalizing i run with
  | nil => simp [seqLoop]
  | cons u rest ih =>
    simp only [seqLoop]
    rw [ih]
    split_ifs <;> simp [requestsOf_append, requestsOf]

/-- The pacing of the loop from index `i` on: one pause of `2 * delay` per
iteration but the one with index 0, one second per index `k` with
`(k + 1) % 10 = 0`. -/
theorem seqLoop_totalSleep (pc : PreCache) (tr : Transport) (urls : List GoString) (i : Nat)
    (run : Run) :
    totalSleep (seqLoop pc tr i urls run).trace =
      totalSleep run.trace
        + pause (wrap64 (pc.delay * 2))
            * ((urls.length : Int) - (if i = 0 ∧ 0 < urls.length then 1 else 0))
        + Second * ((((i + urls.length) / 10 : Nat) : Int) - ((i / 10 : Nat) : Int)) := by
  induction urls generalizing i run with
  | nil => simp [seqLoop]
  | cons u rest ih =>
    simp only [seqLoop]
    rw [ih]
    have hdiv : ((((i + 1 + rest.length) / 10 : Nat) : Int) - (((i + 1) / 10 : Nat) : Int))
        + (if (i + 1) % 10 = 0 then 1 else 0)
        = ((((i + (rest.length + 1)) / 10 : Nat) : Int) - ((i / 10 : Nat) : Int)) := by
      split_ifs <;> omega
    have hlen : (((u :: rest).length : Nat) : Int) = (rest.length : Int) + 1 := by simp
    rw [hlen]
    simp only [List.length_cons, Nat.add_one_ne_zero, false_and, if_false, sub_zero,
      Nat.succ_pos, and_true]
    by_cases h0 : i = 0
    · subst h0
      have h10 : ¬ (0 + 1) % 10 = 0 := by decide
      simp only [h10, if_false, add_zero] at hdiv
      simp only [gt_iff_lt, lt_self_iff_false, if_false, if_true, h10,
        totalSleep_append, totalSleep]
      linear_combination Second * hdiv
    · have hpos : i > 0 := Nat.pos_of_ne_zero h0
      by_cases h10 : (i + 1) % 10 = 0
      · simp only [h10, if_true] at hdiv
        simp only [h0, hpos, h10, if_true, if_false, totalSleep_append, totalSleep,
          pause_Second]
        linear_combination Second * hdiv
      · simp only [h10, if_false, add_zero] at hdiv
        simp only [h0, hpos, h10, if_true, if_false, totalSleep_append, totalSleep]
        linear_combination Second * hdiv

theorem resultsFrom_length (tr : Transport) (urls : List GoString) (i : Nat) :
    (resultsFrom tr i urls).length = urls.length := by
  induction urls generalizing i with
  | nil => rfl
  | cons u rest ih => simp [resultsFrom, ih]

theorem resultsFrom_URL (tr : Transport) (urls : List GoString) (i : Nat) :
    (resultsFrom tr i urls).map RequestResult.URL = urls := by
  induction urls generalizing i with
  | nil => rfl
  | cons u rest ih => simp [resultsFrom, ih, makeRequest_URL]

theorem resultsFrom_const (tr : Transport) (f : GoString → Except GoString (Int × Header))
    (h : ∀ k, tr k = f) (urls : List GoString) (i : Nat) :
    resultsFrom tr i urls = urls.map (makeRequest f) := by
  induction urls generalizing i with
  | nil => rfl
  | cons u rest ih => simp [resultsFrom, ih, h]

theorem wrap64_of_range (x : Int) (h0 : -(2 ^ 63) ≤ x) (h1 : x < 2 ^ 63) : wrap64 x = x := by
  unfold wrap64
  omega

/-! ## Lemmas on the goroutine pool -/

theorem get?_split {α : Type} (l : List α) (i : Nat) (t : α) (h : l[i]? = some t) :
    ∃ pre post, l = pre ++ t :: post ∧ pre.length = i
      ∧ ∀ t2, l.set i t2 = pre ++ t2 :: post := by
  induction l generalizing i with
  | nil => simp at h
  | cons a l ih =>
    cases i with
    | zero =>
      simp at h
      exact ⟨[], l, by simp [h], rfl, fun t2 => by simp⟩
    | succ j =>
      simp at h
      obtain ⟨pre, post, h1, h2, h3⟩ := ih j (by simpa using h)
      exact ⟨a :: pre, post, by simp [h1], by simp [h2], fun t2 => by simp [h3]⟩

/-- The shape of a step: goroutine `i` is at some place of the list and moves
to its next phase. -/
theorem stepAt_cases (pc : PreCache) (tr : Transport) (i : Nat) (s s2 : Pool)
    (h : stepAt pc tr i s = some s2) :
    ∃ pre post u, pre.length = i ∧
      ((s.tasks = pre ++ { url := u, phase := Phase.waiting } :: post
          ∧ (inFlight s.tasks : Int) < pc.size
          ∧ s2 = { s with tasks := pre ++ { url := u, phase := Phase.acquired } :: post })
      ∨ (s.tasks = pre ++ { url := u, phase := Phase.acquired } :: post
          ∧ s2 = { s with
                tasks := pre ++
                  { url := u, phase := Phase.fetched (makeRequest (tr s.calls.length) u) } :: post,
                calls := s.calls ++ [u] })
      ∨ (∃ r, s.tasks = pre ++ { url := u, phase := Phase.fetched r } :: post
          ∧ s2 = { s with
                tasks := pre ++ { url := u, phase := Phase.appended r } :: post,
                results := s.results ++ [r] })
      ∨ (∃ r, s.tasks = pre ++ { url := u, phase := Phase.appended r } :: post
          ∧ s2 = { s with tasks := pre ++ { url := u, phase := Phase.done r } :: post })) := by
  unfold stepAt at h
  cases hg : s.tasks[i]? with
  | none => simp [hg] at h
  | some t =>
    obtain ⟨pre, post, h1, h2, h3⟩ := get?_split s.tasks i t hg
    obtain ⟨u, ph⟩ := t
    refine ⟨pre, post, u, h2, ?_⟩
    simp only [hg] at h
    cases ph with
    | waiting =>
      by_cases hc : (inFlight s.tasks : Int) < pc.size
      · simp only [hc, if_true, Option.some.injEq] at h
        exact Or.inl ⟨h1, hc, by rw [← h, h3]⟩
      · simp [hc] at h
    | acquired =>
      simp only [Option.some.injEq] at h
      exact Or.inr (Or.inl ⟨h1, by rw [← h, h3]⟩)
    | fetched r =>
      simp only [Option.some.injEq] at h
      exact Or.inr (Or.inr (Or.inl ⟨r, h1, by rw [← h, h3]⟩))
    | appended r =>
      simp only [Option.some.injEq] at h
      exact Or.inr (Or.inr (Or.inr ⟨r, h1, by rw [← h, h3]⟩))
    | done r => simp at h

theorem stepAt_work (pc : PreCache) (tr : Transport) (i : Nat) (s s2 : Pool)
    (h : stepAt pc tr i s = some s2) : work s2 + 1 = work s := by
  obtain ⟨pre, post, u, -, h1 | h1 | ⟨r, h1⟩ | ⟨r, h1⟩⟩ := stepAt_cases pc tr i s s2 h
  · obtain ⟨ht, -, hs⟩ := h1
    simp only [work, hs, ht, List.map_append, List.map_cons, List.sum_append, List.sum_cons,
      Phase.remaining]
    omega
  · obtain ⟨ht, hs⟩ := h1
    simp only [work, hs, ht, List.map_append, List.map_cons, List.sum_append, List.sum_cons,
      Phase.remaining]
    omega
  · obtain ⟨ht, hs⟩ := h1
    simp only [work, hs, ht, List.map_append, List.map_cons, List.sum_append, List.sum_cons,
      Phase.remaining]
    omega
  · obtain ⟨ht, hs⟩ := h1
    simp only [work, hs, ht, List.map_append, List.map_cons, List.sum_append, List.sum_cons,
      Phase.remaining]
    omega

theorem stepAt_inv (pc : PreCache) (tr : Transport) (urls : List GoString) (i : Nat)
    (s s2 : Pool) (h : stepAt pc tr i s = some s2) (hinv : PoolInv tr urls s) :
    PoolInv tr urls s2 := by
  obtain ⟨hu, ho, hr, hc⟩ := hinv
  obtain ⟨pre, post, u, -, h1 | h1 | ⟨r, h1⟩ | ⟨r, h1⟩⟩ := stepAt_cases pc tr i s s2 h
  · obtain ⟨ht, -, hs⟩ := h1
    subst hs
    rw [ht] at hu ho hr hc
    refine ⟨by simpa using hu, ?_, by simpa [Phase.landed] using hr,
      by simpa [Phase.outcome] using hc⟩
    intro t htm r hr2
    simp only [List.mem_append, List.mem_cons] at htm
    rcases htm with htm | htm | htm
    · exact ho t (by simp [htm]) r hr2
    · subst htm; simp [Phase.outcome] at hr2
    · exact ho t (by simp [htm]) r hr2
  · obtain ⟨ht, hs⟩ := h1
    subst hs
    rw [ht] at hu ho hr hc
    refine ⟨by simpa using hu, ?_, by simpa [Phase.landed] using hr, ?_⟩
    · intro t htm r hr2
      simp only [List.mem_append, List.mem_cons] at htm
      rcases htm with htm | htm | htm
      · exact ho t (by simp [htm]) r hr2
      · subst htm
        simp only [Phase.outcome, Option.some.injEq] at hr2
        exact ⟨s.calls.length, hr2.symm⟩
      · exact ho t (by simp [htm]) r hr2
    · simp only [List.filter_append, List.map_append, List.filter_cons, Phase.outcome,
        Option.isSome_none, Option.isSome_some, if_true, List.map_cons] at hc ⊢
      simp only [Bool.false_eq_true, if_false] at hc
      have := hc.append_right [u]
      refine this.trans ?_
      simp only [List.append_assoc]
      refine List.Perm.append_left _ ?_
      exact (List.perm_append_comm).trans (by simp)
  · obtain ⟨ht, hs⟩ := h1
    subst hs
    rw [ht] at hu ho hr hc
    refine ⟨by simpa using hu, ?_, ?_, by simpa [Phase.outcome] using hc⟩
    · intro t htm r2 hr2
      simp only [List.mem_append, List.mem_cons] at htm
      rcases htm with htm | htm | htm
      · exact ho t (by simp [htm]) r2 hr2
      · subst htm
        simp only [Phase.outcome, Option.some.injEq] at hr2
        exact ho { url := u, phase := Phase.fetched r } (by simp) r2 (by simp [Phase.outcome, hr2])
      · exact ho t (by simp [htm]) r2 hr2
    · simp only [List.filterMap_append, List.filterMap_cons, Phase.landed] at hr ⊢
      have := hr.append_right [r]
      refine this.trans ?_
      simp only [List.append_assoc]
      refine List.Perm.append_left _ ?_
      exact (List.perm_append_comm).trans (by simp)
  · obtain ⟨ht, hs⟩ := h1
    subst hs
    rw [ht] at hu ho hr hc
    refine ⟨by simpa using hu, ?_, by simpa [Phase.landed] using hr,
      by simpa [Phase.outcome] using hc⟩
    intro t htm r2 hr2
    simp only [List.mem_append, List.mem_cons] at htm
    rcases htm with htm | htm | htm
    · exact ho t (by simp [htm]) r2 hr2
    · subst htm
      simp only [Phase.outcome, Option.some.injEq] at hr2
      exact ho { url := u, phase := Phase.appended r } (by simp) r2 (by simp [Phase.outcome, hr2])
    · exact ho t (by simp [htm]) r2 hr2

/-! ## Runs of the pool -/

theorem runSched_work (pc : PreCache) (tr : Transport) (sched : List Nat) (s s2 : Pool)
    (h : runSched pc tr sched s = some s2) : work s2 + sched.length = work s := by
  induction sched generalizing s with
  | nil =>
    simp only [runSched, Option.some.injEq] at h
    simp [h]
  | cons i rest ih =>
    simp only [runSched] at h
    cases hs : stepAt pc tr i s with
    | none => simp [hs] at h
    | some s1 =>
      simp only [hs, Option.some_bind] at h
      have h1 := ih s1 h
      have h2 := stepAt_work pc tr i s s1 hs
      simp only [List.length_cons]
      omega

theorem runSched_inv (pc : PreCache) (tr : Transport) (urls : List GoString)
    (sched : List Nat) (s s2 : Pool) (h : runSched pc tr sched s = some s2)
    (hinv : PoolInv tr urls s) : PoolInv tr urls s2 := by
  induction sched generalizing s with
  | nil =>
    simp only [runSched, Option.some.injEq] at h
    exact h ▸ hinv
  | cons i rest ih =>
    simp only [runSched] at h
    cases hs : stepAt pc tr i s with
    | none => simp [hs] at h
    | some s1 =>
      simp only [hs, Option.some_bind] at h
      exact ih s1 h (stepAt_inv pc tr urls i s s1 hs hinv)

theorem runSched_append (pc : PreCache) (tr : Transport) (a b : List Nat) (s : Pool) :
    runSched pc tr (a ++ b) s = (runSched pc tr a s).bind (runSched pc tr b) := by
  induction a generalizing s with
  | nil => simp [runSched]
  | cons i rest ih =>
    simp only [List.cons_append, runSched]
    cases hs : stepAt pc tr i s with
    | none => simp
    | some s1 => simp [ih]

theorem initPool_inv (tr : Transport) (urls : List GoString) : PoolInv tr urls (initPool urls) := by
  refine ⟨?_, ?_, ?_, ?_⟩
  · simp [initPool, Function.comp_def]
  · intro t ht r hr
    simp only [initPool, List.mem_map] at ht
    obtain ⟨u, -, rfl⟩ := ht
    simp [Phase.outcome] at hr
  · simp [initPool, List.filterMap_map, Function.comp_def, Phase.landed]
  · simp [initPool, List.filter_map, Function.comp_def, Phase.outcome]

theorem initPool_work (urls : List GoString) : work (initPool urls) = 4 * urls.length := by
  induction urls with
  | nil => rfl
  | cons u rest ih =>
    simp only [work, initPool, List.map_cons, List.sum_cons, Phase.remaining, List.length_cons]
      at ih ⊢
    omega

/-- A successful run from the launch takes at most four actions per target. -/
theorem runSched_bounded (pc : PreCache) (tr : Transport) (urls : List GoString)
    (sched : List Nat) (s : Pool) (h : runSched pc tr sched (initPool urls) = some s) :
    sched.length ≤ 4 * urls.length := by
  have := runSched_work pc tr sched _ s h
  rw [initPool_work] at this
  omega

/-- With at least one slot, some goroutine can act as long as one has not
finished. -/
theorem pool_progress (pc : PreCache) (tr : Transport) (s : Pool) (hsize : 1 ≤ pc.size)
    (hnd : allDone s = false) : ∃ i s2, stepAt pc tr i s = some s2 := by
  by_cases hh : ∃ t ∈ s.tasks, t.phase.holds = true
  · obtain ⟨t, ht, hth⟩ := hh
    obtain ⟨i, hi⟩ := List.getElem?_of_mem ht
    refine ⟨i, ?_⟩
    unfold stepAt
    simp only [hi]
    obtain ⟨u, ph⟩ := t
    cases ph with
    | waiting => simp [Phase.holds] at hth
    | acquired => exact ⟨_, rfl⟩
    | fetched r => exact ⟨_, rfl⟩
    | appended r => exact ⟨_, rfl⟩
    | done r => simp [Phase.holds] at hth
  · have hzero : inFlight s.tasks = 0 := by
      unfold inFlight
      rw [List.countP_eq_zero]
      intro t ht hth
      exact hh ⟨t, ht, hth⟩
    have hex : ∃ t ∈ s.tasks, t.phase.isDone = false := by
      unfold allDone at hnd
      rw [List.all_eq_false] at hnd
      obtain ⟨t, ht, htd⟩ := hnd
      exact ⟨t, ht, by simpa using htd⟩
    obtain ⟨t, ht, htd⟩ := hex
    obtain ⟨i, hi⟩ := List.getElem?_of_mem ht
    refine ⟨i, ?_⟩
    unfold stepAt
    simp only [hi, hzero]
    obtain ⟨u, ph⟩ := t
    cases ph with
    | waiting =>
      have : ((0 : Nat) : Int) < pc.size := by push_cast; omega
      simp only [this, if_true]
      exact ⟨_, rfl⟩
    | acquired => exact (hh ⟨_, ht, rfl⟩).elim
    | fetched r => exact (hh ⟨_, ht, rfl⟩).elim
    | appended r => exact (hh ⟨_, ht, rfl⟩).elim
    | done r => simp [Phase.isDone] at htd

/-- With at least one slot, every pool can be run until all goroutines have
finished. -/
theorem pool_completes (pc : PreCache) (tr : Transport) (hsize : 1 ≤ pc.size) (n : Nat) :
    ∀ s : Pool, work s ≤ n → ∃ sched s2, runSched pc tr sched s = some s2 ∧ allDone s2 = true := by
  induction n with
  | zero =>
    intro s hw
    cases hd : allDone s with
    | true => exact ⟨[], s, rfl, hd⟩
    | false =>
      obtain ⟨i, s1, hs⟩ := pool_progress pc tr s hsize hd
      have := stepAt_work pc tr i s s1 hs
      omega
  | succ n ih =>
    intro s hw
    cases hd : allDone s with
    | true => exact ⟨[], s, rfl, hd⟩
    | false =>
      obtain ⟨i, s1, hs⟩ := pool_progress pc tr s hsize hd
      have hw1 := stepAt_work pc tr i s s1 hs
      obtain ⟨sched, s2, hr, hd2⟩ := ih s1 (by omega)
      exact ⟨i :: sched, s2, by simp [runSched, hs, hr], hd2⟩

theorem landed_of_allDone (tasks : List Task)
    (hd : tasks.all (fun t => t.phase.isDone) = true) :
    (tasks.filterMap (fun t => t.phase.landed)).length = tasks.length
    ∧ (tasks.filter (fun t => t.phase.outcome.isSome)) = tasks := by
  induction tasks with
  | nil => simp
  | cons t rest ih =>
    simp only [List.all_cons, Bool.and_eq_true] at hd
    obtain ⟨u, ph⟩ := t
    cases ph with
    | done r =>
      have := ih hd.2
      have e1 : List.filterMap (fun t : Task => t.phase.landed)
          ({ url := u, phase := Phase.done r } :: rest)
          = r :: List.filterMap (fun t : Task => t.phase.landed) rest := rfl
      have e2 : List.filter (fun t : Task => t.phase.outcome.isSome)
          ({ url := u, phase := Phase.done r } :: rest)
          = { url := u, phase := Phase.done r }
              :: List.filter (fun t : Task => t.phase.outcome.isSome) rest := rfl
      rw [e1, e2, List.length_cons, List.length_cons, this.1, this.2]
      exact ⟨rfl, rfl⟩
    | waiting => simp [Phase.isDone] at hd
    | acquired => simp [Phase.isDone] at hd
    | fetched r => simp [Phase.isDone] at hd
    | appended r => simp [Phase.isDone] at hd

theorem landed_map_of_allDone (tasks : List Task) (g : Task → RequestResult → Prop)
    (hd : tasks.all (fun t => t.phase.isDone) = true)
    (ho : ∀ t ∈ tasks, ∀ r, t.phase.outcome = some r → g t r) :
    List.Forall₂ g tasks (tasks.filterMap (fun t => t.phase.landed)) := by
  induction tasks with
  | nil => simp
  | cons t rest ih =>
    simp only [List.all_cons, Bool.and_eq_true] at hd
    have hrest := ih hd.2 (fun t2 ht2 => ho t2 (List.mem_cons_of_mem _ ht2))
    have ht := ho t (List.mem_cons_self _ _)
    obtain ⟨u, ph⟩ := t
    cases ph with
    | done r =>
      simp only [List.filterMap_cons, Phase.landed]
      exact List.Forall₂.cons (ht r rfl) hrest
    | waiting => simp [Phase.isDone] at hd
    | acquired => simp [Phase.isDone] at hd
    | fetched r => simp [Phase.isDone] at hd
    | appended r => simp [Phase.isDone] at hd

theorem forall₂_map_eq {α β γ : Type} (F : α → γ) (G : β → γ) (ts : List α) (rs : List β)
    (h : List.Forall₂ (fun t r => G r = F t) ts rs) : rs.map G = ts.map F := by
  induction h with
  | nil => rfl
  | cons hx _ ih => simp [hx, ih]

/-- A pool in which every goroutine has finished holds one outcome per target,
for the URLs of the targets, and has made one request per target. -/
theorem pool_final (tr : Transport) (urls : List GoString) (s : Pool)
    (hinv : PoolInv tr urls s) (hd : allDone s = true) :
    s.results.length = urls.length
    ∧ (s.results.map RequestResult.URL).Perm urls
    ∧ s.calls.Perm urls := by
  obtain ⟨hu, ho, hr, hc⟩ := hinv
  have h1 := landed_of_allDone s.tasks hd
  have h2 := landed_map_of_allDone s.tasks (fun t r => r.URL = t.url) hd (by
    intro t ht r hr2
    obtain ⟨k, hk⟩ := ho t ht r hr2
    rw [hk, makeRequest_URL])
  have h3 : (s.tasks.filterMap (fun t => t.phase.landed)).map RequestResult.URL = urls := by
    rw [← hu]
    exact forall₂_map_eq Task.url RequestResult.URL _ _ h2
  refine ⟨?_, ?_, ?_⟩
  · rw [hr.length_eq, h1.1, ← hu, List.length_map]
  · exact (hr.map _).trans (by rw [h3])
  · rw [h1.2, hu] at hc
    exact hc

/-- With a network that answers each URL in one way, the outcomes of a
finished pool are those of requesting the targets one by one. -/
theorem pool_final_const (tr : Transport) (f : GoString → Except GoString (Int × Header))
    (hf : ∀ k, tr k = f) (urls : List GoString) (s : Pool)
    (hinv : PoolInv tr urls s) (hd : allDone s = true) :
    s.results.Perm (urls.map (makeRequest f)) := by
  obtain ⟨hu, ho, hr, -⟩ := hinv
  have h2 := landed_map_of_allDone s.tasks (fun t r => r = makeRequest f t.url) hd (by
    intro t ht r hr2
    obtain ⟨k, hk⟩ := ho t ht r hr2
    rw [hk, hf])
  have h3 : s.tasks.filterMap (fun t => t.phase.landed) = urls.map (makeRequest f) := by
    rw [← hu, List.map_map]
    have := forall₂_map_eq (fun t : Task => makeRequest f t.url) id _ _ h2
    simpa [Function.comp_def] using this
  rw [← h3]
  exact hr

/-! ## Lemmas on the patterns -/

theorem matchAt_lit_ne (c x : Char) (ts : List Tok) (s : GoString) (h : x ≠ c) :
    matchAt (Tok.lit c :: ts) (x :: s) = none := by
  simp [matchAt, h]

theorem matchAt_lit (c : Char) (ts : List Tok) (s r : GoString) :
    matchAt (Tok.lit c :: ts) s = some r ↔ ∃ s1, s = c :: s1 ∧ matchAt ts s1 = some r := by
  cases s with
  | nil => simp [matchAt]
  | cons x s1 =>
    by_cases hx : x = c
    · subst hx; simp [matchAt]
    · rw [matchAt_lit_ne c x ts s1 hx]
      constructor
      · intro h; cases h
      · rintro ⟨s2, h1, -⟩
        simp only [List.cons.injEq] at h1
        exact (hx h1.1).elim

theorem matchAt_lits (p : GoString) (ts : List Tok) (s r : GoString) :
    matchAt (lits p ++ ts) s = some r ↔ ∃ s1, s = p ++ s1 ∧ matchAt ts s1 = some r := by
  induction p generalizing s with
  | nil => simp [lits]
  | cons c p ih =>
    have hl : lits (c :: p) ++ ts = Tok.lit c :: (lits p ++ ts) := rfl
    rw [hl, matchAt_lit]
    constructor
    · rintro ⟨s1, rfl, h⟩
      obtain ⟨s2, rfl, h2⟩ := (ih s1).1 h
      exact ⟨s2, rfl, h2⟩
    · rintro ⟨s1, rfl, h⟩
      exact ⟨p ++ s1, rfl, (ih _).2 ⟨s1, rfl, h⟩⟩

/-- An optional character followed by a different literal character. -/
theorem matchAt_opt_lit (c d : Char) (hcd : c ≠ d) (ts : List Tok) (s r : GoString) :
    matchAt (Tok.opt c :: Tok.lit d :: ts) s = some r ↔
      (∃ s1, s = c :: d :: s1 ∧ matchAt ts s1 = some r)
      ∨ (∃ s1, s = d :: s1 ∧ matchAt ts s1 = some r) := by
  cases s with
  | nil => simp [matchAt]
  | cons x s1 =>
    by_cases hx : x = c
    · subst hx
      have hn : matchAt (Tok.lit d :: ts) (x :: s1) = none := matchAt_lit_ne d x ts s1 hcd
      have he : matchAt (Tok.opt x :: Tok.lit d :: ts) (x :: s1)
          = matchAt (Tok.lit d :: ts) s1 := by
        conv_lhs => unfold matchAt
        simp only [if_true]
        cases hm : matchAt (Tok.lit d :: ts) s1 with
        | none => simp [hn]
        | some r2 => rfl
      rw [he, matchAt_lit]
      constructor
      · rintro ⟨s2, rfl, h⟩; exact Or.inl ⟨s2, rfl, h⟩
      · rintro (⟨s2, h1, h⟩ | ⟨s2, h1, h⟩)
        · simp only [List.cons.injEq, true_and] at h1
          exact ⟨s2, h1, h⟩
        · simp only [List.cons.injEq] at h1
          exact (hcd h1.1).elim
    · have he : matchAt (Tok.opt c :: Tok.lit d :: ts) (x :: s1)
          = matchAt (Tok.lit d :: ts) (x :: s1) := by
        conv_lhs => unfold matchAt
        simp only [hx, if_false]
      rw [he, matchAt_lit]
      constructor
      · rintro ⟨s2, h1, h⟩; exact Or.inr ⟨s2, h1, h⟩
      · rintro (⟨s2, h1, h⟩ | ⟨s2, h1, h⟩)
        · simp only [List.cons.injEq] at h1
          exact (hx h1.1).elim
        · exact ⟨s2, h1, h⟩

/-- A repetition of characters other than `c`, followed by `c`. -/
theorem plusCands_lit (c : Char) (ts : List Tok) (s r : GoString) :
    (plusCands c s).findSome? (matchAt (Tok.lit c :: ts)) = some r ↔
      ∃ X s1, X ≠ [] ∧ c ∉ X ∧ s = X ++ c :: s1 ∧ matchAt ts s1 = some r := by
  induction s with
  | nil => simp [plusCands]
  | cons x s0 ih =>
    by_cases hx : x = c
    · subst hx
      simp only [plusCands, if_true, List.findSome?_nil]
      refine ⟨fun h => (by cases h), ?_⟩
      rintro ⟨X, s1, hX, hc, hs, -⟩
      cases X with
      | nil => exact (hX rfl).elim
      | cons y X2 =>
        simp only [List.cons_append, List.cons.injEq] at hs
        exact (hc (by simp [hs.1])).elim
    · simp only [plusCands, hx, if_false, List.findSome?_append, List.findSome?_cons,
        List.findSome?_nil]
      constructor
      · intro h
        cases hf : (plusCands c s0).findSome? (matchAt (Tok.lit c :: ts)) with
        | some r2 =>
          rw [hf] at h
          simp only [Option.or_some, Option.some.injEq] at h
          subst h
          obtain ⟨X, s1, hX, hc, hs, hm⟩ := ih.1 hf
          refine ⟨x :: X, s1, by simp, ?_, by simp [hs], hm⟩
          simp only [List.mem_cons, not_or]
          exact ⟨fun e => hx e.symm, hc⟩
        | none =>
          rw [hf] at h
          simp only [Option.none_or] at h
          cases hm : matchAt (Tok.lit c :: ts) s0 with
          | none => simp [hm] at h
          | some r2 =>
            simp only [hm, Option.some.injEq] at h
            subst h
            obtain ⟨s1, hs, hm2⟩ := (matchAt_lit c ts s0 r2).1 hm
            refine ⟨[x], s1, by simp, ?_, by simp [hs], hm2⟩
            simp only [List.mem_singleton]
            exact fun e => hx e.symm
      · rintro ⟨X, s1, hX, hc, hs, hm⟩
        cases X with
        | nil => exact (hX rfl).elim
        | cons y X2 =>
          simp only [List.cons_append, List.cons.injEq] at hs
          obtain ⟨-, hs0⟩ := hs
          have hc2 : c ∉ X2 := fun e => hc (List.mem_cons_of_mem _ e)
          cases X2 with
          | nil =>
            simp only [List.nil_append] at hs0
            subst hs0
            have hm3 : matchAt (Tok.lit c :: ts) (c :: s1) = some r :=
              (matchAt_lit c ts _ r).2 ⟨s1, rfl, hm⟩
            simp [plusCands, hm3]
          | cons z X3 =>
            have := ih.2 ⟨z :: X3, s1, by simp, hc2, hs0, hm⟩
            rw [this]
            simp

theorem matchAt_plusNot_lit (c : Char) (ts : List Tok) (s r : GoString) :
    matchAt (Tok.plusNot c :: Tok.lit c :: ts) s = some r ↔
      ∃ X s1, X ≠ [] ∧ c ∉ X ∧ s = X ++ c :: s1 ∧ matchAt ts s1 = some r := by
  have : matchAt (Tok.plusNot c :: Tok.lit c :: ts) s
      = (plusCands c s).findSome? (matchAt (Tok.lit c :: ts)) := by
    conv_lhs => unfold matchAt
  rw [this, plusCands_lit]

/-- A repetition at the end of the pattern takes everything up to the next
`c`. -/
theorem matchAt_plusNot_end (c : Char) (X rest : GoString) (hX : X ≠ []) (hc : c ∉ X) :
    matchAt [Tok.plusNot c] (X ++ c :: rest) = some (c :: rest) := by
  have hu : ∀ s, matchAt [Tok.plusNot c] s = (plusCands c s).findSome? (matchAt []) := by
    intro s
    conv_lhs => unfold matchAt
  rw [hu]
  induction X with
  | nil => exact (hX rfl).elim
  | cons x X2 ih =>
    have hx : x ≠ c := fun e => hc (by simp [e])
    have hc2 : c ∉ X2 := fun e => hc (List.mem_cons_of_mem _ e)
    cases X2 with
    | nil => simp [plusCands, hx, matchAt]
    | cons z X3 =>
      have := ih (by simp) hc2
      simp only [List.cons_append, plusCands, hx, if_false, List.findSome?_append] at this ⊢
      rw [this]
      simp

/-- The texts matched by `<loc>https?://[^<]+</loc>`. -/
theorem matchAt_locPattern (s r : GoString) :
    matchAt locPattern s = some r ↔
      ∃ sch X, (sch = "http".toList ∨ sch = "https".toList) ∧ X ≠ [] ∧ '<' ∉ X
        ∧ s = "<loc>".toList ++ sch ++ "://".toList ++ X ++ "</loc>".toList ++ r := by
  have hp : locPattern = lits "<loc>http".toList ++ (Tok.opt 's' :: Tok.lit ':'
      :: (lits "//".toList ++ (Tok.plusNot '<' :: Tok.lit '<'
      :: (lits "/loc>".toList ++ [])))) := by decide
  rw [hp]
  simp only [matchAt_lits, matchAt_opt_lit 's' ':' (by decide), matchAt_plusNot_lit]
  constructor
  · rintro ⟨s1, rfl, ⟨s2, rfl, s3, rfl, X, s4, hX, hc, rfl, s5, rfl, h⟩
        | ⟨s2, rfl, s3, rfl, X, s4, hX, hc, rfl, s5, rfl, h⟩⟩
    · simp only [matchAt, Option.some.injEq] at h
      subst h
      exact ⟨"https".toList, X, Or.inr rfl, hX, hc, by simp⟩
    · simp only [matchAt, Option.some.injEq] at h
      subst h
      exact ⟨"http".toList, X, Or.inl rfl, hX, hc, by simp⟩
  · rintro ⟨sch, X, hsch | hsch, hX, hc, rfl⟩
    · subst hsch
      refine ⟨_, by simp, Or.inr ⟨_, rfl, _, rfl, X, _, hX, hc, rfl, r, rfl, by simp [matchAt]⟩⟩
    · subst hsch
      refine ⟨_, by simp, Or.inl ⟨_, rfl, _, rfl, X, _, hX, hc, rfl, r, rfl, by simp [matchAt]⟩⟩

/-! ## Lemmas on the extraction by patterns -/

theorem FindString_of_match (toks : List Tok) (c : Char) (s r : GoString)
    (h : matchAt toks (c :: s) = some r) :
    FindString toks (c :: s) = (c :: s).take ((c :: s).length - r.length) := by
  simp [FindString, h]

theorem FindString_skip (toks : List Tok) (c : Char) (s : GoString)
    (h : matchAt toks (c :: s) = none) : FindString toks (c :: s) = FindString toks s := by
  simp [FindString, h]

theorem matchAt_urlPattern (sch X rest : GoString)
    (hsch : sch = "http".toList ∨ sch = "https".toList) (hX : X ≠ []) (hc : '<' ∉ X) :
    matchAt urlPattern (sch ++ "://".toList ++ X ++ '<' :: rest) = some ('<' :: rest) := by
  have hp : urlPattern = lits "http".toList ++ (Tok.opt 's' :: Tok.lit ':'
      :: (lits "//".toList ++ [Tok.plusNot '<'])) := by decide
  rw [hp]
  simp only [matchAt_lits, matchAt_opt_lit 's' ':' (by decide)]
  rcases hsch with rfl | rfl
  · exact ⟨_, by simp, Or.inr ⟨_, rfl, _, rfl, matchAt_plusNot_end '<' X rest hX hc⟩⟩
  · exact ⟨_, by simp, Or.inl ⟨_, rfl, _, rfl, matchAt_plusNot_end '<' X rest hX hc⟩⟩

/-- In a matched location element the second pattern finds the text between
the tags. -/
theorem FindString_wrapLoc (sch X : GoString)
    (hsch : sch = "http".toList ∨ sch = "https".toList) (hX : X ≠ []) (hc : '<' ∉ X) :
    FindString urlPattern (wrapLoc (sch ++ "://".toList ++ X)) = sch ++ "://".toList ++ X := by
  have hm := matchAt_urlPattern sch X "/loc>".toList hsch hX hc
  have hu : urlPattern = Tok.lit 'h' :: urlPattern.tail := by decide
  have hw : wrapLoc (sch ++ "://".toList ++ X)
      = '<' :: 'l' :: 'o' :: 'c' :: '>' :: (sch ++ "://".toList ++ X ++ '<' :: "/loc>".toList) := by
    simp [wrapLoc]
  rw [hw]
  rw [FindString_skip _ _ _ (by rw [hu]; exact matchAt_lit_ne 'h' '<' _ _ (by decide)),
    FindString_skip _ _ _ (by rw [hu]; exact matchAt_lit_ne 'h' 'l' _ _ (by decide)),
    FindString_skip _ _ _ (by rw [hu]; exact matchAt_lit_ne 'h' 'o' _ _ (by decide)),
    FindString_skip _ _ _ (by rw [hu]; exact matchAt_lit_ne 'h' 'c' _ _ (by decide)),
    FindString_skip _ _ _ (by rw [hu]; exact matchAt_lit_ne 'h' '>' _ _ (by decide))]
  have hcons : ∃ t, sch ++ "://".toList ++ X ++ '<' :: "/loc>".toList = 'h' :: t := by
    rcases hsch with rfl | rfl <;> exact ⟨_, by simp; rfl⟩
  obtain ⟨t, ht⟩ := hcons
  rw [ht] at hm ⊢
  rw [FindString_of_match _ _ _ _ hm, ← ht]
  have hlen : (sch ++ "://".toList ++ X ++ '<' :: "/loc>".toList).length
      - ('<' :: "/loc>".toList).length = (sch ++ "://".toList ++ X).length := by
    simp only [List.length_append, List.length_cons]
    omega
  rw [hlen, List.take_left' rfl]

/-- Every text returned by the scan is the text of a match. -/
theorem findAllFrom_mem (toks : List Tok) (s : GoString) (k : Nat) (m : GoString)
    (h : m ∈ findAllFrom toks k s) :
    ∃ s1 r, matchAt toks s1 = some r ∧ m = s1.take (s1.length - r.length) := by
  induction s generalizing k with
  | nil => simp [findAllFrom] at h
  | cons c s ih =>
    cases k with
    | succ k =>
      simp only [findAllFrom] at h
      exact ih k h
    | zero =>
      simp only [findAllFrom] at h
      cases hm : matchAt toks (c :: s) with
      | none =>
        simp only [hm] at h
        exact ih 0 h
      | some r =>
        simp only [hm, List.mem_cons] at h
        rcases h with h | h
        · exact ⟨c :: s, r, hm, h⟩
        · exact ih _ h

/-- The texts returned by the scan for the location pattern. -/
theorem findAll_locPattern (content m : GoString) (h : m ∈ FindAllString locPattern content) :
    ∃ sch X, (sch = "http".toList ∨ sch = "https".toList) ∧ X ≠ [] ∧ '<' ∉ X
      ∧ m = wrapLoc (sch ++ "://".toList ++ X) := by
  obtain ⟨s1, r, hm, hmt⟩ := findAllFrom_mem locPattern content 0 m h
  obtain ⟨sch, X, hsch, hX, hc, hs⟩ := (matchAt_locPattern s1 r).1 hm
  refine ⟨sch, X, hsch, hX, hc, ?_⟩
  rw [hmt, hs]
  have hlen : ("<loc>".toList ++ sch ++ "://".toList ++ X ++ "</loc>".toList ++ r).length
      - r.length = ("<loc>".toList ++ sch ++ "://".toList ++ X ++ "</loc>".toList).length := by
    simp only [List.length_append]
    omega
  rw [hlen, List.take_left' rfl]
  simp [wrapLoc]

theorem processURL_no_host (pc : PreCache) (rawURL : GoString) (h : pc.host = []) :
    processURL pc rawURL = rawURL := by
  simp [processURL, h]

theorem regexLoop_wrap (pc : PreCache) (hhost : pc.host = []) (ms : List GoString)
    (hall : ∀ m ∈ ms, ∃ u, u ≠ [] ∧ m = wrapLoc u ∧ FindString urlPattern m = u)
    (acc : List GoString) :
    (regexLoop pc ms acc).map wrapLoc = acc.map wrapLoc ++ ms := by
  induction ms generalizing acc with
  | nil => simp [regexLoop]
  | cons m rest ih =>
    obtain ⟨u, hu, hm, hf⟩ := hall m (List.mem_cons_self _ _)
    simp only [regexLoop, hf, hu, if_false]
    rw [ih (fun m2 h2 => hall m2 (List.mem_cons_of_mem _ h2)), processURL_no_host pc u hhost]
    simp [hm]

/-! ## Further lemmas on the dispatcher -/

theorem seqLoop_trace (pc : PreCache) (tr : Transport) (hd : wrap64 (pc.delay * 2) = 2 * pc.delay)
    (urls : List GoString) (i : Nat) (run : Run) :
    (seqLoop pc tr i urls run).trace = run.trace ++ pacedFrom pc.delay i urls := by
  induction urls generalizing i run with
  | nil => simp [seqLoop, pacedFrom]
  | cons u rest ih =>
    simp only [seqLoop, pacedFrom]
    rw [ih, hd]
    by_cases h0 : i > 0 <;> by_cases h10 : (i + 1) % 10 = 0 <;> simp [h0, h10]

/-- Without a slot no goroutine gets past the semaphore. -/
theorem stepAt_initPool_none (pc : PreCache) (tr : Transport) (urls : List GoString) (i : Nat)
    (hsize : pc.size ≤ 0) : stepAt pc tr i (initPool urls) = none := by
  unfold stepAt
  cases hg : (initPool urls).tasks[i]? with
  | none => rfl
  | some t =>
    have hm : t ∈ (initPool urls).tasks := List.getElem?_mem hg
    simp only [initPool, List.mem_map] at hm
    obtain ⟨u, -, rfl⟩ := hm
    have : ¬ ((inFlight (initPool urls).tasks : Int) < pc.size) := by
      have : (0 : Int) ≤ (inFlight (initPool urls).tasks : Int) := Int.natCast_nonneg _
      omega
    simp [this]

theorem runSched_initPool_no_slots (pc : PreCache) (tr : Transport) (urls : List GoString)
    (hsize : pc.size ≤ 0) (sched : List Nat) (s : Pool)
    (h : runSched pc tr sched (initPool urls) = some s) : s = initPool urls := by
  cases sched with
  | nil =>
    simp only [runSched, Option.some.injEq] at h
    exact h.symm
  | cons i rest =>
    simp [runSched, stepAt_initPool_none pc tr urls i hsize] at h

theorem allDone_initPool (urls : List GoString) (h : urls ≠ []) : allDone (initPool urls) = false := by
  cases urls with
  | nil => exact (h rfl).elim
  | cons u rest => simp [allDone, initPool, Phase.isDone]

/-- The ways a call of the dispatcher can end when the ceiling is at least 1:
it returns, with one outcome and one request per target. -/
theorem dispatch_returns (pc : PreCache) (tr : Transport) (urls : List GoString)
    (hsize : 1 ≤ pc.size) (o : DispatchOutcome) (h : processURLsConcurrently pc tr urls o) :
    ∃ results requests, o = DispatchOutcome.returned results requests
      ∧ results.length = urls.length
      ∧ (results.map RequestResult.URL).Perm urls
      ∧ requests.Perm urls
      ∧ ∀ f, (∀ k, tr k = f) → results.Perm (urls.map (makeRequest f)) := by
  unfold processURLsConcurrently at h
  by_cases h1 : pc.size = 1
  · simp only [h1, if_true] at h
    refine ⟨_, _, h, ?_, ?_, ?_, ?_⟩
    · simp [processURLsSequentially, seqLoop_results, resultsFrom_length]
    · simp [processURLsSequentially, seqLoop_results, resultsFrom_URL]
    · simp [processURLsSequentially, seqLoop_requests, requestsOf]
    · intro f hf
      simp [processURLsSequentially, seqLoop_results, resultsFrom_const tr f hf]
  · have h2 : ¬ pc.size < 0 := by omega
    simp only [h1, h2, if_false] at h
    obtain ⟨sched, s, hrun, hcase⟩ := h
    have hinv := runSched_inv pc tr urls sched _ s hrun (initPool_inv tr urls)
    rcases hcase with ⟨hd, ho⟩ | ⟨hd, hstuck, -⟩
    · obtain ⟨ha, hb, hc⟩ := pool_final tr urls s hinv hd
      exact ⟨_, _, ho, ha, hb, hc, fun f hf => pool_final_const tr f hf urls s hinv hd⟩
    · obtain ⟨i, s2, hs⟩ := pool_progress pc tr s hsize hd
      rw [hstuck i] at hs
      cases hs

/-- With a ceiling of at least 1 the dispatcher has a way to end. -/
theorem dispatch_exists (pc : PreCache) (tr : Transport) (urls : List GoString)
    (hsize : 1 ≤ pc.size) : ∃ o, processURLsConcurrently pc tr urls o := by
  unfold processURLsConcurrently
  by_cases h1 : pc.size = 1
  · exact ⟨DispatchOutcome.returned (processURLsSequentially pc tr urls).results
      (requestsOf (processURLsSequentially pc tr urls).trace), by simp only [h1, if_true]⟩
  · have h2 : ¬ pc.size < 0 := by omega
    obtain ⟨sched, s, hrun, hd⟩ := pool_completes pc tr hsize _ (initPool urls) (le_refl _)
    refine ⟨DispatchOutcome.returned s.results s.calls, ?_⟩
    simp only [h1, h2, if_false]
    exact ⟨sched, s, hrun, Or.inl ⟨hd, rfl⟩⟩

/-- With a ceiling of at least 1 every run of the pool is finite and can be
continued until `wg.Wait()` returns. -/
theorem dispatch_terminates (pc : PreCache) (tr : Transport) (urls : List GoString)
    (hsize : 1 ≤ pc.size) (sched : List Nat) (s : Pool)
    (h : runSched pc tr sched (initPool urls) = some s) :
    sched.length ≤ 4 * urls.length
      ∧ ∃ sched2 s2, runSched pc tr sched2 s = some s2 ∧ allDone s2 = true :=
  ⟨runSched_bounded pc tr urls sched s h, pool_completes pc tr hsize _ s (le_refl _)⟩

/-- With ceiling 0 and at least one target the dispatcher never returns. -/
theorem dispatch_no_slots (pc : PreCache) (tr : Transport) (urls : List GoString)
    (hsize : pc.size = 0) (hurls : urls ≠ []) (o : DispatchOutcome) :
    processURLsConcurrently pc tr urls o ↔ o = DispatchOutcome.blocked [] := by
  unfold processURLsConcurrently
  have h1 : ¬ pc.size = 1 := by omega
  have h2 : ¬ pc.size < 0 := by omega
  simp only [h1, h2, if_false]
  constructor
  · rintro ⟨sched, s, hrun, hcase⟩
    have hs := runSched_initPool_no_slots pc tr urls (by omega) sched s hrun
    subst hs
    rcases hcase with ⟨hd, -⟩ | ⟨-, -, ho⟩
    · rw [allDone_initPool urls hurls] at hd
      cases hd
    · exact ho
  · intro ho
    exact ⟨[], initPool urls, rfl, Or.inr ⟨allDone_initPool urls hurls,
      fun i => stepAt_initPool_none pc tr urls i (by omega), ho⟩⟩

/-- The sequential loop reads only the delay of the configuration. -/
theorem seqLoop_congr (pc1 pc2 : PreCache) (h : pc1.delay = pc2.delay) (tr : Transport)
    (urls : List GoString) (i : Nat) (run : Run) :
    seqLoop pc1 tr i urls run = seqLoop pc2 tr i urls run := by
  induction urls generalizing i run with
  | nil => rfl
  | cons u rest ih =>
    simp only [seqLoop, h, ih]

/-! ## Classification and counting: the claims -/

/-- C1: for a non-empty header name, `processResults` counts each outcome in
the bucket given by the classification rule: Exception when the error is set,
otherwise MissingHeader when no key equals the header name case-insensitively,
otherwise, on the upper-cased join of the matching key's values, Hit when it
contains HIT, else Miss when it contains MISS or EXPIRED, else None.  HIT wins
over MISS and EXPIRED; the values hit, HIT and Hit, stale count as Hit, Expired
and miss as Miss. -/
theorem processResults_buckets :
    (∀ (pc : PreCache) (results : List RequestResult), pc.cacheHeader ≠ [] →
      processResults pc results = tally pc (results.map (Classify pc.cacheHeader)))
    ∧ (∀ (pc : PreCache) (result : RequestResult),
      processResult pc result = bump pc (Classify pc.cacheHeader result))
    ∧ (∀ (pc : PreCache) (result : RequestResult) (kv : GoString × List GoString),
      result.Error = none →
      result.Headers.find? (fun e => EqualFold e.1 pc.cacheHeader) = some kv →
      Contains (ToUpper (Join kv.2 ", ".toList)) "HIT".toList = true →
      processResult pc result = bump pc Category.Hit)
    ∧ processResults pcXCache [withHeaders [("X-Cache".toList, ["MISS, HIT".toList])]]
        = bump pcXCache Category.Hit
    ∧ processResults pcXCache [withHeaders [("X-Cache".toList, ["EXPIRED".toList, "hit".toList])]]
        = bump pcXCache Category.Hit
    ∧ processResults pcXCache [withHeaders [("X-Cache".toList, ["hit".toList])]]
        = bump pcXCache Category.Hit
    ∧ processResults pcXCache [withHeaders [("X-Cache".toList, ["HIT".toList])]]
        = bump pcXCache Category.Hit
    ∧ processResults pcXCache [withHeaders [("X-Cache".toList, ["Hit, stale".toList])]]
        = bump pcXCache Category.Hit
    ∧ processResults pcXCache [withHeaders [("X-Cache".toList, ["Expired".toList])]]
        = bump pcXCache Category.Miss
    ∧ processResults pcXCache [withHeaders [("X-Cache".toList, ["miss".toList])]]
        = bump pcXCache Category.Miss
    ∧ processResults pcXCache [withHeaders [("X-Cache".toList, ["BYPASS".toList])]]
        = bump pcXCache Category.None
    ∧ processResults pcXCache [withHeaders [("Server".toList, ["hit".toList])]]
        = bump pcXCache Category.MissingHeader
    ∧ processResults pcXCache
        [{ URL := [], StatusCode := 0, Headers := [], Error := some "timeout".toList }]
        = bump pcXCache Category.Exception := by
  refine ⟨processResults_eq_tally, processResult_eq, ?_, by decide, by decide, by decide,
    by decide, by decide, by decide, by decide, by decide, by decide, by decide⟩
  intro pc result kv he hf hc
  rw [processResult_eq]
  simp only [Classify, he, hf, classifyValue, hc, Option.isSome_none, Bool.false_eq_true, if_false, if_true]

/-- Witness for C1: two outcomes under the header name x-cache. -/
theorem processResults_buckets_witness :
    pcXCache.cacheHeader ≠ [] ∧
    processResults pcXCache
        [withHeaders [("X-Cache".toList, ["Hit, stale".toList])], withHeaders []]
      = tally pcXCache [Category.Hit, Category.MissingHeader] :=
  ⟨by decide, by
    have h := processResults_buckets.1 pcXCache
      [withHeaders [("X-Cache".toList, ["Hit, stale".toList])], withHeaders []] (by decide)
    rw [h]; decide⟩

/-- C2: with a non-empty header name the five counters add up to the number of
outcomes, every outcome moving exactly one counter by one; with an empty header
name all five counters are zero, whatever the outcomes. -/
theorem processResults_partition (pc : PreCache) (results : List RequestResult) :
    (pc.cacheHeader ≠ [] →
      (processResults pc results).hitCount + (processResults pc results).missCount
        + (processResults pc results).noneCount + (processResults pc results).noHeaderCount
        + (processResults pc results).exceptionCount = (results.length : Int))
    ∧ (∀ r : RequestResult, ∃ c : Category, processResult pc r = bump pc c)
    ∧ (pc.cacheHeader = [] →
      (processResults pc results).hitCount = 0 ∧ (processResults pc results).missCount = 0
        ∧ (processResults pc results).noneCount = 0
        ∧ (processResults pc results).noHeaderCount = 0
        ∧ (processResults pc results).exceptionCount = 0) := by
  refine ⟨?_, fun r => ⟨_, processResult_eq pc r⟩, ?_⟩
  · intro h
    rw [processResults_eq_tally pc results h]
    have hs := count_category_sum (results.map (Classify pc.cacheHeader))
    simp only [List.length_map] at hs
    simp only [tally]
    exact_mod_cast hs
  · intro h
    simp [processResults, h]

/-- Witness for C2: three outcomes, one of them failed, with and without a
header name. -/
theorem processResults_partition_witness :
    (pcXCache.cacheHeader ≠ [] ∧
      (processResults pcXCache [withHeaders [], withHeaders [],
          { URL := [], StatusCode := 0, Headers := [], Error := some [] }]).noHeaderCount = 2)
    ∧ ({ pcXCache with cacheHeader := [] } : PreCache).cacheHeader = []
    ∧ (processResults { pcXCache with cacheHeader := [] }
          [{ URL := [], StatusCode := 0, Headers := [], Error := some [] }]).exceptionCount = 0 :=
  ⟨⟨by decide, by decide⟩, rfl,
    ((processResults_partition { pcXCache with cacheHeader := [] }
      [{ URL := [], StatusCode := 0, Headers := [], Error := some [] }]).2.2 rfl).2.2.2.2⟩

/-- C3, as stated, fails: a response with the headers `X-Cache: HIT` and
`x-cache: MISS` is one outcome, but the `range` over its header map may visit
either key first; the same one-element list then counts one hit in one call
and one miss in another. -/
theorem processResults_visit_order_matters :
    Reordered [hitThenMiss] [missThenHit]
    ∧ (processResults pcXCache [hitThenMiss]).hitCount = 1
    ∧ (processResults pcXCache [hitThenMiss]).missCount = 0
    ∧ (processResults pcXCache [missThenHit]).hitCount = 0
    ∧ (processResults pcXCache [missThenHit]).missCount = 1
    ∧ processResults pcXCache [hitThenMiss] ≠ processResults pcXCache [missThenHit] := by
  refine ⟨⟨[hitThenMiss], List.Perm.refl _, ?_⟩, by decide, by decide, by decide, by decide,
    by decide⟩
  exact List.Forall₂.cons ⟨rfl, rfl, rfl, List.Perm.swap _ _ []⟩ List.Forall₂.nil

/-- C3 (amended): when in every outcome the header keys that equal the header
name case-insensitively give the same bucket (in particular when at most one
key does), the counters computed by `processResults` do not depend on the
order of the outcomes nor on the order in which each header map is visited: a
reordered list gives the same state, in particular the same five counts. -/
theorem processResults_reordered (pc : PreCache) (l1 l2 : List RequestResult)
    (h : Reordered l1 l2)
    (hagree : ∀ o ∈ l1, ∀ kv ∈ o.Headers, ∀ kv2 ∈ o.Headers,
      EqualFold kv.1 pc.cacheHeader = true → EqualFold kv2.1 pc.cacheHeader = true →
      classifyValue kv.2 = classifyValue kv2.2) :
    processResults pc l1 = processResults pc l2 := by
  obtain ⟨l, hp, hs⟩ := h
  rw [processResults_perm_same_visits pc l1 l hp]
  by_cases hh : pc.cacheHeader = []
  · simp [processResults, hh]
  · rw [processResults_eq_tally pc l hh, processResults_eq_tally pc l2 hh,
      Classify_sameOutcomes pc.cacheHeader l l2 hs
        (fun o ho => hagree o (hp.mem_iff.2 ho))]

/-- Witness for C3: a hit with a second header and a failed outcome, swapped,
the headers of the hit visited in the other order. -/
theorem processResults_reordered_witness :
    Reordered
        [withHeaders [("x-cache".toList, ["HIT".toList]), ("Server".toList, ["nginx".toList])],
         { URL := [], StatusCode := 0, Headers := [], Error := some [] }]
        [{ URL := [], StatusCode := 0, Headers := [], Error := some [] },
         withHeaders [("Server".toList, ["nginx".toList]), ("x-cache".toList, ["HIT".toList])]]
    ∧ processResults pcXCache
        [withHeaders [("x-cache".toList, ["HIT".toList]), ("Server".toList, ["nginx".toList])],
         { URL := [], StatusCode := 0, Headers := [], Error := some [] }]
      = processResults pcXCache
        [{ URL := [], StatusCode := 0, Headers := [], Error := some [] },
         withHeaders [("Server".toList, ["nginx".toList]), ("x-cache".toList, ["HIT".toList])]] :=
  have hr : Reordered
      [withHeaders [("x-cache".toList, ["HIT".toList]), ("Server".toList, ["nginx".toList])],
       { URL := [], StatusCode := 0, Headers := [], Error := some [] }]
      [{ URL := [], StatusCode := 0, Headers := [], Error := some [] },
       withHeaders [("Server".toList, ["nginx".toList]), ("x-cache".toList, ["HIT".toList])]] :=
    ⟨_, List.Perm.swap _ _ [],
      List.Forall₂.cons ⟨rfl, rfl, rfl, List.Perm.refl _⟩
        (List.Forall₂.cons ⟨rfl, rfl, rfl, List.Perm.swap _ _ []⟩ List.Forall₂.nil)⟩
  ⟨hr, processResults_reordered pcXCache _ _ hr (by decide)⟩

/-! ## URL rewriting: the claims -/

/-- C4: evaluation of `processURL` with override host 127.0.0.1:8080 and
captured scheme https.  The example of the specification is rewritten as
stated, but the path is taken from the decoded `Path` field of the parsed URL:
an escape written in the raw URL is not preserved.  An escaped number sign,
question mark or space comes out as the character itself, so that the page
/tags/c%23 becomes /tags/c followed by an empty fragment. -/
theorem processURL_decodes_path :
    processURL pcOverride "https://example.com/a/b?x=1".toList
        = "https://127.0.0.1:8080/a/b?x=1".toList
    ∧ processURL pcOverride "https://example.com/tags/c%23".toList
        = "https://127.0.0.1:8080/tags/c#".toList
    ∧ processURL pcOverride "https://example.com/tags/c%23".toList
        ≠ "https://127.0.0.1:8080/tags/c%23".toList
    ∧ processURL pcOverride "https://example.com/a%3Fb?x=1".toList
        = "https://127.0.0.1:8080/a?b?x=1".toList
    ∧ processURL pcOverride "https://example.com/a%20b".toList
        = "https://127.0.0.1:8080/a b".toList := by
  refine ⟨by decide, by decide, by decide, by decide, by decide⟩

/-- C8: `processURL` is total and returns its argument unchanged when no
override host is configured, and also when an override host is configured and
the argument does not parse. -/
theorem processURL_unchanged (pc : PreCache) (rawURL : GoString) :
    (pc.host = [] → processURL pc rawURL = rawURL)
    ∧ (pc.host ≠ [] → Parse rawURL = none → processURL pc rawURL = rawURL) := by
  constructor
  · intro h
    exact processURL_no_host pc rawURL h
  · intro h hp
    simp [processURL, h, hp]

/-- Witness for C8: a URL left alone without override host, and two texts that
do not parse (a leading colon, a malformed escape) with an override host. -/
theorem processURL_unchanged_witness :
    (pcXCache.host = []
      ∧ processURL pcXCache "https://example.com/a%20b".toList = "https://example.com/a%20b".toList)
    ∧ (pcOverride.host ≠ [] ∧ Parse "://example.com/a".toList = none
      ∧ processURL pcOverride "://example.com/a".toList = "://example.com/a".toList)
    ∧ (Parse "https://example.com/%zz".toList = none
      ∧ processURL pcOverride "https://example.com/%zz".toList
          = "https://example.com/%zz".toList) :=
  ⟨⟨by decide, (processURL_unchanged pcXCache _).1 (by decide)⟩,
   ⟨by decide, by decide, (processURL_unchanged pcOverride _).2 (by decide) (by decide)⟩,
   ⟨by decide, (processURL_unchanged pcOverride _).2 (by decide) (by decide)⟩⟩

/-! ## Extraction by patterns: the claim -/

/-- C7: without host override `getURLsRegex` never fails and returns, in the
order of the document, one URL for each match of the location pattern, the
match being the URL between the two tags; every match has the form of the
pattern, so none is skipped.  A document with a broken root element and one
location element gives the URL of that element. -/
theorem getURLsRegex_fragments (pc : PreCache) (sitemapContent : GoString)
    (hhost : pc.host = []) :
    (∃ urls, getURLsRegex pc sitemapContent = Except.ok urls
      ∧ urls.map wrapLoc = FindAllString locPattern sitemapContent
      ∧ urls.length = (FindAllString locPattern sitemapContent).length)
    ∧ (∀ m ∈ FindAllString locPattern sitemapContent,
        ∃ sch X, (sch = "http".toList ∨ sch = "https".toList) ∧ X ≠ [] ∧ '<' ∉ X
          ∧ m = wrapLoc (sch ++ "://".toList ++ X))
    ∧ getURLsRegex pcXCache "<urlset><url><loc>https://example.com/q</loc></url>".toList
        = Except.ok ["https://example.com/q".toList] := by
  have hall : ∀ m ∈ FindAllString locPattern sitemapContent,
      ∃ u, u ≠ [] ∧ m = wrapLoc u ∧ FindString urlPattern m = u := by
    intro m hm
    obtain ⟨sch, X, hsch, hX, hc, rfl⟩ := findAll_locPattern sitemapContent m hm
    refine ⟨sch ++ "://".toList ++ X, by simp, rfl, FindString_wrapLoc sch X hsch hX hc⟩
  have hw := regexLoop_wrap pc hhost _ hall []
  simp only [List.map_nil, List.nil_append] at hw
  have hl := congrArg List.length hw
  rw [List.length_map] at hl
  exact ⟨⟨_, rfl, hw, hl⟩, findAll_locPattern sitemapContent, rfl⟩

/-- Witness for C7: a document with two location elements, a location that is
not a URL and an unclosed one. -/
theorem getURLsRegex_fragments_witness :
    pcXCache.host = []
    ∧ ∃ urls, getURLsRegex pcXCache
          "<url><loc>http://a/1</loc><loc>ftp://x</loc><loc>http://b<loc>https://c/2</loc>".toList
        = Except.ok urls
      ∧ urls.map wrapLoc = FindAllString locPattern
          "<url><loc>http://a/1</loc><loc>ftp://x</loc><loc>http://b<loc>https://c/2</loc>".toList
      ∧ urls.length = (FindAllString locPattern
          "<url><loc>http://a/1</loc><loc>ftp://x</loc><loc>http://b<loc>https://c/2</loc>".toList).length :=
  ⟨rfl, (getURLsRegex_fragments pcXCache _ rfl).1⟩

/-! ## The dispatcher: the claims -/

/-- C5, as stated, fails: with concurrency ceiling 0 and two targets no
goroutine gets past the semaphore, the dispatcher never returns and makes no
request. -/
theorem dispatch_ceiling_zero_blocks :
    pcNoSlots.size = 0
    ∧ processURLsConcurrently pcNoSlots noNetwork twoTargets (DispatchOutcome.blocked [])
    ∧ ¬ ∃ results requests, processURLsConcurrently pcNoSlots noNetwork twoTargets
          (DispatchOutcome.returned results requests) := by
  refine ⟨rfl, ?_, ?_⟩
  · exact (dispatch_no_slots pcNoSlots noNetwork twoTargets rfl (by decide) _).2 rfl
  · rintro ⟨results, requests, h⟩
    have := (dispatch_no_slots pcNoSlots noNetwork twoTargets rfl (by decide) _).1 h
    cases this

/-- C5 (amended): for every list of targets and every concurrency ceiling of
at least 1 the dispatcher returns: it has a way to end, every run of the pool
is finite and can be completed, and every way to end returns a list of as many
outcomes as there are targets, whose URLs are the targets up to order, after
one request per target. -/
theorem dispatch_once_per_target (pc : PreCache) (tr : Transport) (urls : List GoString)
    (hsize : 1 ≤ pc.size) :
    (∃ o, processURLsConcurrently pc tr urls o)
    ∧ (∀ o, processURLsConcurrently pc tr urls o →
        ∃ results requests, o = DispatchOutcome.returned results requests
          ∧ results.length = urls.length
          ∧ (results.map RequestResult.URL).Perm urls
          ∧ requests.Perm urls)
    ∧ (∀ sched s, runSched pc tr sched (initPool urls) = some s →
        sched.length ≤ 4 * urls.length
          ∧ ∃ sched2 s2, runSched pc tr sched2 s = some s2 ∧ allDone s2 = true) := by
  refine ⟨dispatch_exists pc tr urls hsize, ?_, dispatch_terminates pc tr urls hsize⟩
  intro o ho
  obtain ⟨results, requests, h1, h2, h3, h4, -⟩ := dispatch_returns pc tr urls hsize o ho
  exact ⟨results, requests, h1, h2, h3, h4⟩

/-- Witness for C5: ceiling 5, two targets, and a run in which the second
goroutine appends first. -/
theorem dispatch_once_per_target_witness :
    (1 : Int) ≤ pcXCache.size
    ∧ (∃ s, runSched pcXCache allHit [0, 1, 1, 0, 1, 0, 0, 1] (initPool twoTargets) = some s
        ∧ allDone s = true
        ∧ s.results.map RequestResult.URL
            = ["https://example.com/b".toList, "https://example.com/a".toList])
    ∧ ∀ o, processURLsConcurrently pcXCache allHit twoTargets o →
        ∃ results requests, o = DispatchOutcome.returned results requests
          ∧ results.length = twoTargets.length
          ∧ (results.map RequestResult.URL).Perm twoTargets
          ∧ requests.Perm twoTargets :=
  ⟨by decide, ⟨_, rfl, by decide, by decide⟩,
    (dispatch_once_per_target pcXCache allHit twoTargets (by decide)).2.1⟩

/-- C9: with a network that answers each URL in one way, sequential mode
(ceiling 1) returns the fetcher mapped over the targets in input order, and
parallel mode (ceiling above 1) always returns, each time a permutation of the
sequential result. -/
theorem parallel_perm_sequential (pc : PreCache) (tr : Transport)
    (f : GoString → Except GoString (Int × Header)) (urls : List GoString)
    (hf : ∀ k, tr k = f) (hsize : 1 < pc.size) :
    (processURLsSequentially pc tr urls).results = urls.map (makeRequest f)
    ∧ (∀ o, processURLsConcurrently { pc with size := 1 } tr urls o ↔
        o = DispatchOutcome.returned (processURLsSequentially pc tr urls).results
              (requestsOf (processURLsSequentially pc tr urls).trace))
    ∧ (∃ o, processURLsConcurrently pc tr urls o)
    ∧ (∀ o, processURLsConcurrently pc tr urls o →
        ∃ results requests, o = DispatchOutcome.returned results requests
          ∧ results.Perm (processURLsSequentially pc tr urls).results)
    ∧ (∀ sched s, runSched pc tr sched (initPool urls) = some s →
        sched.length ≤ 4 * urls.length
          ∧ ∃ sched2 s2, runSched pc tr sched2 s = some s2 ∧ allDone s2 = true) := by
  have hseq : (processURLsSequentially pc tr urls).results = urls.map (makeRequest f) := by
    simp [processURLsSequentially, seqLoop_results, resultsFrom_const tr f hf]
  have h1 : (1 : Int) ≤ pc.size := by omega
  refine ⟨hseq, ?_, dispatch_exists pc tr urls h1, ?_, dispatch_terminates pc tr urls h1⟩
  · intro o
    have hc : processURLsSequentially { pc with size := 1 } tr urls
        = processURLsSequentially pc tr urls :=
      seqLoop_congr { pc with size := 1 } pc rfl tr urls 0 _
    unfold processURLsConcurrently
    simp only [if_true, hc]
  · intro o ho
    obtain ⟨results, requests, e, -, -, -, hp⟩ := dispatch_returns pc tr urls h1 o ho
    exact ⟨results, requests, e, by rw [hseq]; exact hp f hf⟩

/-- Witness for C9: ceiling 5 and two targets on a network where every page
is a hit. -/
theorem parallel_perm_sequential_witness :
    (∀ k, allHit k = allHit 0) ∧ (1 : Int) < pcXCache.size
    ∧ (processURLsSequentially pcXCache allHit twoTargets).results
        = twoTargets.map (makeRequest (allHit 0))
    ∧ ∀ o, processURLsConcurrently pcXCache allHit twoTargets o →
        ∃ results requests, o = DispatchOutcome.returned results requests
          ∧ results.Perm (processURLsSequentially pcXCache allHit twoTargets).results :=
  ⟨fun _ => rfl, by decide,
    (parallel_perm_sequential pcXCache allHit (allHit 0) twoTargets (fun _ => rfl)
      (by decide)).1,
    (parallel_perm_sequential pcXCache allHit (allHit 0) twoTargets (fun _ => rfl)
      (by decide)).2.2.2.1⟩

/-- C10, as stated, fails: with a base delay of minus one millisecond, and
with one of 4611686018428 milliseconds whose double wraps around, `time.Sleep`
gets a negative duration and does not pause, so the time slept before the
second of two requests is 0 and not twice the base delay. -/
theorem pacing_fails_negative_delay :
    totalSleep (processURLsSequentially pcNegativeDelay noNetwork twoTargets).trace = 0
    ∧ totalSleep (processURLsSequentially pcNegativeDelay noNetwork twoTargets).trace
        ≠ 2 * pcNegativeDelay.delay * ((twoTargets.length : Int) - 1)
            + ((twoTargets.length / 10 : Nat) : Int) * Second
    ∧ totalSleep (processURLsSequentially pcHugeDelay noNetwork twoTargets).trace = 0
    ∧ totalSleep (processURLsSequentially pcHugeDelay noNetwork twoTargets).trace
        ≠ 2 * pcHugeDelay.delay * ((twoTargets.length : Int) - 1)
            + ((twoTargets.length / 10 : Nat) : Int) * Second := by
  refine ⟨by decide, by decide, by decide, by decide⟩

/-- C10 (amended): for a base delay `d` that is not negative and whose double
fits a 64-bit duration, sequential mode for `n` targets sleeps twice `d` before
each request except the first and one second after every tenth request; the
total is `2 * d * (n - 1) + (n / 10)` seconds for `n ≥ 1` and 0 for `n = 0`;
the requests are made in input order and the outcomes are returned in that
order. -/
theorem sequential_pacing (pc : PreCache) (tr : Transport) (urls : List GoString)
    (h0 : 0 ≤ pc.delay) (h1 : pc.delay * 2 < 2 ^ 63) :
    (processURLsSequentially pc tr urls).trace = pacedFrom pc.delay 0 urls
    ∧ totalSleep (processURLsSequentially pc tr urls).trace
        = (if urls.length = 0 then 0
           else 2 * pc.delay * ((urls.length : Int) - 1)
                  + ((urls.length / 10 : Nat) : Int) * Second)
    ∧ requestsOf (processURLsSequentially pc tr urls).trace = urls
    ∧ (processURLsSequentially pc tr urls).results = resultsFrom tr 0 urls
    ∧ (processURLsSequentially pc tr urls).results.map RequestResult.URL = urls := by
  have hw : wrap64 (pc.delay * 2) = 2 * pc.delay := by
    rw [wrap64_of_range _ (by omega) h1]; ring
  have hp : pause (wrap64 (pc.delay * 2)) = 2 * pc.delay := by
    rw [hw]
    unfold pause
    split_ifs with hle
    · omega
    · rfl
  refine ⟨?_, ?_, ?_, ?_, ?_⟩
  · simp [processURLsSequentially, seqLoop_trace pc tr hw]
  · unfold processURLsSequentially
    rw [seqLoop_totalSleep, hp]
    by_cases hn : urls.length = 0
    · simp [hn, totalSleep]
    · have hpos : 0 < urls.length := Nat.pos_of_ne_zero hn
      simp only [hn, hpos, if_false, and_self, if_true, totalSleep, zero_add, Nat.zero_div,
        Nat.cast_zero, sub_zero]
      ring
  · simp [processURLsSequentially, seqLoop_requests, requestsOf]
  · simp [processURLsSequentially, seqLoop_results]
  · simp [processURLsSequentially, seqLoop_results, resultsFrom_URL]

/-- Witness for C10: base delay 500 ms and 21 targets: 20 sleeps of one second
and two pauses of one second. -/
theorem sequential_pacing_witness :
    0 ≤ pcXCache.delay ∧ pcXCache.delay * 2 < 2 ^ 63
    ∧ totalSleep (processURLsSequentially pcXCache allHit
          (List.replicate 21 "https://example.com/a".toList)).trace
        = 22 * Second :=
  ⟨by decide, by decide, by
    rw [(sequential_pacing pcXCache allHit (List.replicate 21 "https://example.com/a".toList)
      (by decide) (by decide)).2.1]
    decide⟩

/-! ## Start: the claim -/

/-- C6, as stated, fails in its second half: with one extracted URL and
concurrency ceiling 0 `Start` calls the dispatcher and never returns. -/
theorem start_ceiling_zero_blocks :
    getURLs pcNoSlots envOnePage = Except.ok ["https://example.com/a".toList]
    ∧ (∃ o, Start pcNoSlots envOnePage o)
    ∧ ∀ o, Start pcNoSlots envOnePage o →
        o.result = StartResult.blocked ∧ o.result ≠ StartResult.returned none := by
  have hd := dispatch_no_slots pcNoSlots envOnePage.transport ["https://example.com/a".toList]
    rfl (by decide)
  have hS : ∀ o, Start pcNoSlots envOnePage o ↔
      ∃ d : DispatchOutcome,
        processURLsConcurrently pcNoSlots envOnePage.transport ["https://example.com/a".toList] d ∧
        match d with
        | DispatchOutcome.returned results requests =>
          o = { result := StartResult.returned none, dispatched := true, requests := requests,
                counters := processResults pcNoSlots results }
        | DispatchOutcome.panicked =>
          o = { result := StartResult.panicked, dispatched := true, requests := [],
                counters := pcNoSlots }
        | DispatchOutcome.blocked requests =>
          o = { result := StartResult.blocked, dispatched := true, requests := requests,
                counters := pcNoSlots } := fun o => Iff.rfl
  refine ⟨rfl, ?_, ?_⟩
  · exact ⟨_, (hS _).2 ⟨DispatchOutcome.blocked [], (hd _).2 rfl, rfl⟩⟩
  · intro o ho
    obtain ⟨d, h1, h2⟩ := (hS o).1 ho
    have := (hd d).1 h1
    subst this
    simp only at h2
    subst h2
    exact ⟨rfl, by decide⟩

/-- C6 (amended): when the extraction succeeds with zero URLs, `Start` returns
an error without calling the dispatcher or making a request; when it yields at
least one URL and the concurrency ceiling is at least 1, `Start` calls the
dispatcher, requests every URL once and returns no error. -/
theorem start_empty_fatal (pc : PreCache) (env : Env) (urls : List GoString)
    (hurls : getURLs pc env = Except.ok urls) :
    (urls = [] → ∀ o, Start pc env o ↔
        o = { result := StartResult.returned
                (some "提取网址失败，请检查sitemap文件是否符合规范".toList),
              dispatched := false, requests := [], counters := pc })
    ∧ (urls ≠ [] → 1 ≤ pc.size →
        (∃ o, Start pc env o)
        ∧ ∀ o, Start pc env o →
            o.result = StartResult.returned none ∧ o.dispatched = true
              ∧ o.requests.Perm urls) := by
  constructor
  · intro he o
    subst he
    unfold Start
    rw [hurls]
    simp
  · intro hne hsize
    have hlen : ¬ urls.length = 0 := by
      intro h
      exact hne (List.length_eq_zero.1 h)
    constructor
    · obtain ⟨d, hd⟩ := dispatch_exists pc env.transport urls hsize
      obtain ⟨results, requests, e, -⟩ := dispatch_returns pc env.transport urls hsize d hd
      subst e
      refine ⟨{ result := StartResult.returned none, dispatched := true, requests := requests,
                counters := processResults pc results }, ?_⟩
      unfold Start
      rw [hurls]
      simp only [hlen, if_false]
      exact ⟨_, hd, rfl⟩
    · intro o ho
      unfold Start at ho
      rw [hurls] at ho
      simp only [hlen, if_false] at ho
      obtain ⟨d, hd, hm⟩ := ho
      obtain ⟨results, requests, e, -, -, hreq, -⟩ :=
        dispatch_returns pc env.transport urls hsize d hd
      subst e
      simp only at hm
      subst hm
      exact ⟨rfl, rfl, hreq⟩

/-- Witness for C6: a sitemap without pages, and a sitemap with one page under
ceiling 5. -/
theorem start_empty_fatal_witness :
    (getURLs pcXCache envNoPage = Except.ok []
      ∧ Start pcXCache envNoPage
          { result := StartResult.returned
              (some "提取网址失败，请检查sitemap文件是否符合规范".toList),
            dispatched := false, requests := [], counters := pcXCache })
    ∧ (getURLs pcXCache envOnePage = Except.ok ["https://example.com/a".toList]
      ∧ (1 : Int) ≤ pcXCache.size
      ∧ ∃ o, Start pcXCache envOnePage o) :=
  ⟨⟨rfl, ((start_empty_fatal pcXCache envNoPage [] rfl).1 rfl _).2 rfl⟩,
   ⟨rfl, by decide,
    ((start_empty_fatal pcXCache envOnePage ["https://example.com/a".toList] rfl).2
      (by decide) (by decide)).1⟩⟩

end PreCaching
